import Mathlib

/-!
Verification of the fleet-scaling core of the kube-burner `ocp` workers-scale
module: the replica balancer (`adjustMachineSets`), the node readiness poller
(`waitForNodes` / `isNodeReady`), the shell-level bounded retry loop, and the
orchestrator's error policy (`OrchestrateWorkload`).

The Go/bash sources are embedded shallowly: Go maps become association lists,
the `sync.Map` scaling plan becomes an association list, Go `int` arithmetic
becomes `Int`/`Nat` with the same comparisons, and the runtime panics that the
source can hit (index out of range, slice bounds out of range) become
`Except.error` results.
-/

set_option linter.unusedVariables false

/-- Mirrors the Go struct `MachineSetInfo{prevReplicas, currentReplicas}`. -/
structure MachineSetInfo where
  prevReplicas : Nat
  currentReplicas : Nat
  deriving Repr, DecidableEq

/-- The scaling plan: the `sync.Map` from machine-set name to `MachineSetInfo`,
embedded as an association list with unique keys. -/
abbrev Plan := List (String × MachineSetInfo)

/-- The `machineSetReplicas` argument: Go's `map[int][]string` grouping
machine-set names by replica count, as an association list. -/
abbrev Grouping := List (Nat × List String)

/-- Ghost trace of increment events: each entry `(name, level)` records that
`name` was given one more replica while sitting at replica count `level`. -/
abbrev Trace := List (String × Nat)

/-- `sync.Map.Load` on the plan. -/
def planLoad : Plan → String → Option MachineSetInfo
  | [], _ => none
  | (q, i) :: rest, p => if q = p then some i else planLoad rest p

/-- `sync.Map.Store` on the plan: replace the entry if present, else append. -/
def planStore : Plan → String → MachineSetInfo → Plan
  | [], p, i => [(p, i)]
  | (q, j) :: rest, p, i =>
    if q = p then (p, i) :: rest else (q, j) :: planStore rest p i

/-- Go map read `machineSetReplicas[value]`. -/
def groupLoad : Grouping → Nat → Option (List String)
  | [], _ => none
  | (m, l) :: rest, k => if m = k then some l else groupLoad rest k

/-- Go map write `machineSetReplicas[k] = v`: replace if present, else add. -/
def groupSet : Grouping → Nat → List String → Grouping
  | [], k, v => [(k, v)]
  | (m, l) :: rest, k, v =>
    if m = k then (k, v) :: rest else (m, l) :: groupSet rest k v

/-- Go `machineSetReplicas[k] = append(machineSetReplicas[k], p)` (a missing
key reads as the empty slice). -/
def groupAppend (g : Grouping) (k : Nat) (p : String) : Grouping :=
  groupSet g k ((groupLoad g k).getD [] ++ [p])

/-- Go `delete(machineSetReplicas, k)`. -/
def groupDelete : Grouping → Nat → Grouping
  | [], _ => []
  | (m, l) :: rest, k =>
    if m = k then groupDelete rest k else (m, l) :: groupDelete rest k

/-- The list stored under key `k`, the empty list when absent. -/
def listAt (g : Grouping) (k : Nat) : List String := (groupLoad g k).getD []

/-- Sum over the plan of `currentReplicas - prevReplicas`, as an integer. -/
def planSum : Plan → Int
  | [] => 0
  | (_, i) :: rest =>
    ((i.currentReplicas : Int) - (i.prevReplicas : Int)) + planSum rest

/-- All machine-set names appearing in the grouping, in listing order. -/
def poolsOf (g : Grouping) : List String := (g.map Prod.snd).flatten

/-- State threaded through the balancer's loops: the plan under construction,
the (mutated) grouping, the remaining desired count, the function-scoped
`lastIndex` variable, the ghost event trace, and the per-pass `modified`
flag. -/
structure InnerState where
  plan : Plan
  g : Grouping
  d : Int
  lastIndex : Nat
  trace : Trace
  modified : Bool
  deriving Repr

/-- The inner `for index, machineSet := range machineSets` loop of
`adjustMachineSets`: while `desiredWorkerCount > 0`, record the machine set in
the plan (creating the entry with `prevReplicas = value` on first touch, then
storing `currentReplicas = value + 1`), append it to the `value+1` group,
remember the inner index in `lastIndex`, and decrement the desired count. -/
def innerLoop (value : Nat) : List String → Nat → InnerState → InnerState
  | [], _, s => s
  | ms :: rest, i, s =>
    if s.d > 0 then
      let plan1 := match planLoad s.plan ms with
        | some _ => s.plan
        | none => planStore s.plan ms ⟨value, value + 1⟩
      let msInfo := (planLoad plan1 ms).getD ⟨0, 0⟩
      let plan2 := planStore plan1 ms
        { msInfo with currentReplicas := value + 1 }
      innerLoop value rest (i + 1)
        { plan := plan2, g := groupAppend s.g (value + 1) ms, d := s.d - 1,
          lastIndex := i, trace := s.trace ++ [(ms, value)], modified := true }
    else s

/-- Insertion of the synthetic key `v` right after position `index`, mirroring
`keys = append(keys[:index+1], append([]int{value+1}, keys[index+1:]...)...)`. -/
def insertKey (keys : List Nat) (index : Nat) (v : Nat) : List Nat :=
  keys.take (index + 1) ++ v :: keys.drop (index + 1)

/-- The outer `for index < len(keys)` loop of `adjustMachineSets`. `fuel` is a
structural bound on the number of iterations; every run of the source either
breaks, exhausts the key list, or panics, and the chosen fuel is proven
sufficient on the inputs the theorems cover. Go runtime panics (out-of-range
index or slice) surface as `Except.error`. -/
def outerLoop : Nat → List Nat → Nat → Grouping → Plan → Int → Nat → Trace →
    Except String (Plan × Trace)
  | 0, _, _, _, _, _, _, _ => .error "fuel exhausted"
  | fuel + 1, keys, index, g, plan, d, lastIndex, trace =>
    if hidx : index < keys.length then
      let value := keys.getD index 0
      let step : Except String InnerState :=
        match groupLoad g value with
        | some machineSets =>
          let s := innerLoop value machineSets 0
            { plan := plan, g := g, d := d, lastIndex := lastIndex,
              trace := trace, modified := false }
          if (s.lastIndex : Int) = (machineSets.length : Int) - 1 then
            .ok { s with g := groupDelete s.g value }
          else if s.lastIndex + 1 ≤ machineSets.length then
            let rest := machineSets.drop (s.lastIndex + 1)
            .ok { s with g := groupSet s.g value rest }
          else .error "slice bounds out of range"
        | none =>
          .ok { plan := plan, g := g, d := d, lastIndex := lastIndex,
                trace := trace, modified := false }
      match step with
      | .error e => .error e
      | .ok s =>
        let keysE : Except String (List Nat) :=
          if s.modified = true ∧ index = keys.length - 1 then
            .ok (insertKey keys index (value + 1))
          else if index + 1 < keys.length then
            if value + 1 ≠ keys.getD (index + 1) 0 then
              .ok (insertKey keys index (value + 1))
            else .ok keys
          else .error "index out of range"
        match keysE with
        | .error e => .error e
        | .ok keys1 =>
          if s.d ≤ 0 then .ok (s.plan, s.trace)
          else outerLoop fuel keys1 (index + 1) s.g s.plan s.d s.lastIndex
            s.trace
    else .ok (plan, trace)

/-- The ascending key list built by `sort.Ints` over the map's keys. -/
def sortedKeys (g : Grouping) : List Nat :=
  List.insertionSort (· ≤ ·) (g.map Prod.fst)

/-- `adjustMachineSets` together with its ghost trace of increment events. -/
def adjustMachineSetsT (g : Grouping) (desiredWorkerCount : Int) :
    Except String (Plan × Trace) :=
  outerLoop (desiredWorkerCount.toNat + 2) (sortedKeys g) 0 g []
    desiredWorkerCount 0 []

/-- The replica balancer `adjustMachineSets` of the workers-scale module:
spreads `desiredWorkerCount` additional replicas across the machine sets of
the grouping, lowest replica counts first. -/
def adjustMachineSets (g : Grouping) (desiredWorkerCount : Int) :
    Except String Plan :=
  (adjustMachineSetsT g desiredWorkerCount).map Prod.fst

/-- A grouping as produced from a real fleet inventory: unique replica-count
keys, no empty name lists, and no machine set listed twice. -/
def WFGrouping (g : Grouping) : Prop :=
  (g.map Prod.fst).Nodup ∧ (∀ e ∈ g, e.2 ≠ []) ∧ (poolsOf g).Nodup

instance (g : Grouping) : Decidable (WFGrouping g) := by
  unfold WFGrouping; infer_instance

/-- The replica-count group a machine set starts in. -/
def startOf : Grouping → String → Option Nat
  | [], _ => none
  | (k, l) :: rest, p => if p ∈ l then some k else startOf rest p

/-- Leveling invariant over a trace: whenever an event increments a pool `p`
from level `L` after `p` was already incremented earlier in the pass, every
pool whose starting count is strictly below `L` already appears earlier in
the trace. -/
def Leveling (g0 : Grouping) (trace : Trace) : Prop :=
  ∀ t1 p L t2, trace = t1 ++ (p, L) :: t2 → p ∈ t1.map Prod.fst →
    ∀ q k, startOf g0 q = some k → k < L → q ∈ t1.map Prod.fst

/-- Replay of one increment event onto a plan: create the entry with
`prevReplicas = level` if absent, then set `currentReplicas = level + 1`. -/
def applyEvent (plan : Plan) (ev : String × Nat) : Plan :=
  match planLoad plan ev.1 with
  | some i => planStore plan ev.1 ⟨i.prevReplicas, ev.2 + 1⟩
  | none => planStore plan ev.1 ⟨ev.2, ev.2 + 1⟩

/-- Replay of a whole event trace onto a plan. -/
def applyEvents (plan : Plan) (evs : Trace) : Plan := evs.foldl applyEvent plan

/-- One entry of `node.Status.Conditions`. -/
structure NodeCondition where
  ctype : String
  status : String
  deriving Repr, DecidableEq

/-- A node as seen by the poller: name plus status conditions. -/
structure KNode where
  name : String
  conditions : List NodeCondition
  deriving Repr, DecidableEq

/-- `isNodeReady`: true when some condition has type `Ready` and status
`True`, mirroring the loop over `node.Status.Conditions`. -/
def isNodeReady (node : KNode) : Bool :=
  node.conditions.any (fun c => c.ctype == "Ready" && c.status == "True")

/-- Outcome of a polling wait. -/
inductive PollOutcome where
  | success
  | timeout
  | queryErr (msg : String)
  deriving Repr, DecidableEq

/-- `wait.PollUntilContextTimeout` with `immediate = true`: evaluate the
condition at tick `t`, then at `t+1`, ..., for `fuel` remaining checks within
the deadline. A condition error aborts immediately; a `true` result succeeds;
running out of checks is the deadline elapsing. -/
def pollUntil (f : Nat → Except String Bool) : Nat → Nat → PollOutcome
  | 0, _ => .timeout
  | fuel + 1, t =>
    match f t with
    | .error e => .queryErr e
    | .ok true => .success
    | .ok false => pollUntil f fuel (t + 1)

/-- `waitForNodes`: poll the node listing until every node is ready. The
listing at each tick is supplied by `listNodes`; `checks` is the number of
checks that fit in `maxWaitTimeout` (one immediate plus one per elapsed
second). -/
def waitForNodes (listNodes : Nat → Except String (List KNode))
    (checks : Nat) : PollOutcome :=
  pollUntil (fun t => (listNodes t).map (fun nodes => nodes.all isNodeReady))
    checks 0

/-- The node listing at tick `t` reports every node ready. -/
def allNodesReady (listNodes : Nat → Except String (List KNode))
    (t : Nat) : Prop :=
  ∃ nodes, listNodes t = .ok nodes ∧ nodes.all isNodeReady = true

instance (listNodes : Nat → Except String (List KNode)) (t : Nat) :
    Decidable (allNodesReady listNodes t) := by
  unfold allNodesReady
  exact match listNodes t with
  | .ok nodes => decidable_of_iff (nodes.all isNodeReady = true)
      (by simp)
  | .error e => .isFalse (by simp)

/-- `MAX_RETRIES` of the VM check script: wait up to about 60 minutes. -/
def MAX_RETRIES : Nat := 126

/-- `WAIT_TIMES` of the VM check script: shorter sleeps for the first tries. -/
def WAIT_TIMES : List Nat := [1, 2, 3, 5, 10, 20, 30]

/-- The sleep chosen for a given `counter`: `WAIT_TIMES[counter]` while in
range, afterwards the last listed value. -/
def waitTimeAt (counter : Nat) : Nat :=
  if counter < WAIT_TIMES.length then WAIT_TIMES.getD counter 0
  else WAIT_TIMES.getD (WAIT_TIMES.length - 1) 0

/-- The retry loop body of the VM check script, for one VM. `probe a` is the
result of `${COMMAND} "${vm}"` on attempt `a`; `left` counts the attempts
still available (so `left = MAX_RETRIES - attempt + 1`); `counter` and
`slept` accumulate the backoff state. Returns `some (attempts, totalSleep)`
on success and `none` when the attempt budget is exhausted (`exit 1`). -/
def retryAux (probe : Nat → Bool) :
    Nat → Nat → Nat → Nat → Option (Nat × Nat)
  | 0, _, _, _ => none
  | left + 1, attempt, counter, slept =>
    if probe attempt then some (attempt, slept)
    else if left = 0 then none
    else retryAux probe left (attempt + 1) (counter + 1)
      (slept + waitTimeAt counter)

/-- The bounded retry driver: `for attempt in $(seq 1 $MAX_RETRIES)` with the
`WAIT_TIMES` backoff schedule. -/
def runRetry (probe : Nat → Bool) : Option (Nat × Nat) :=
  retryAux probe MAX_RETRIES 1 0 0

/-- Total sleep for `k` failed attempts:
`sum of WAIT_TIMES[min(i, len-1)] for i = 0 .. k-1`. -/
def sleepSum (k : Nat) : Nat :=
  ((List.range k).map
    (fun i => WAIT_TIMES.getD (min i (WAIT_TIMES.length - 1)) 0)).sum

/-- Observable steps of `AWSScenario.OrchestrateWorkload`, in program order. -/
inductive OrchStep where
  | getMachineSets
  | getMachines
  | setupMetrics
  | measurementsStart
  | adjustStep
  | editMachineSets (scale : Bool)
  | logErr (msg : String)
  | getMachinesPost
  | discardPreviousMachines
  | finalizeMetrics
  deriving Repr, DecidableEq

/-- The fixed tail of the orchestration: post-scale machine snapshot, diff of
new instances, metrics finalization, and the garbage-collection revert when
requested. -/
def orchTail (gc : Bool) : List OrchStep :=
  [.getMachinesPost, .discardPreviousMachines, .finalizeMetrics] ++
    (if gc then [.editMachineSets false] else [])

/-- Control-flow skeleton of `AWSScenario.OrchestrateWorkload`:
`stopResult` is the value returned by `measurements.Stop()` (`some msg` for a
failure) and `gc` is `scaleConfig.GC`. A stop failure only inserts a
`log.Error` step; execution always continues into `orchTail`. -/
def orchestrateWorkload (stopResult : Option String) (gc : Bool) :
    List OrchStep :=
  [.getMachineSets, .getMachines, .setupMetrics, .measurementsStart,
   .adjustStep, .editMachineSets true] ++
  (match stopResult with
   | some msg => [.logErr msg]
   | none => []) ++
  orchTail gc

/-- Whether a node named `p` is listed and ready at tick `t`. -/
def nodeObservedReady (listNodes : Nat → Except String (List KNode))
    (p : String) (t : Nat) : Bool :=
  match listNodes t with
  | .ok nodes => nodes.any (fun n => n.name == p && isNodeReady n)
  | .error _ => false

/-- Node listing for the poller counterexample: at tick 0 only `n2` is ready,
at every later tick only `n1` is ready. -/
def exListNodes : Nat → Except String (List KNode) := fun t =>
  if t = 0 then
    .ok [⟨"n1", [⟨"Ready", "False"⟩]⟩, ⟨"n2", [⟨"Ready", "True"⟩]⟩]
  else
    .ok [⟨"n1", [⟨"Ready", "True"⟩]⟩, ⟨"n2", [⟨"Ready", "False"⟩]⟩]

/-- Exact characterization of `pollUntil` when no check errors: success means
some check returned true, timeout means every check within the budget
returned false. -/
theorem pollUntil_spec (f : Nat → Except String Bool) :
    ∀ (fuel start : Nat), (∀ j, j < fuel → ∃ b, f (start + j) = .ok b) →
    ((pollUntil f fuel start = .success ↔
        ∃ j, j < fuel ∧ f (start + j) = .ok true) ∧
     (pollUntil f fuel start = .timeout ↔
        ∀ j, j < fuel → f (start + j) = .ok false)) := by
  intro fuel
  induction fuel with
  | zero =>
    intro start h
    constructor
    · simp [pollUntil]
    · simp [pollUntil]
  | succ n ih =>
    intro start h
    obtain ⟨b, hb⟩ := h 0 (Nat.succ_pos n)
    rw [Nat.add_zero] at hb
    cases b with
    | true =>
      constructor
      · simp only [pollUntil, hb]
        constructor
        · intro _
          exact ⟨0, Nat.succ_pos n, by rw [Nat.add_zero]; exact hb⟩
        · intro _
          trivial
      · simp only [pollUntil, hb]
        constructor
        · intro h'; cases h'
        · intro hall
          have h0 := hall 0 (Nat.succ_pos n)
          rw [Nat.add_zero, hb] at h0
          cases h0
    | false =>
      have h' : ∀ j, j < n → ∃ b, f (start + 1 + j) = .ok b := by
        intro j hj
        have := h (j + 1) (by omega)
        rwa [show start + (j + 1) = start + 1 + j by omega] at this
      have IH := ih (start + 1) h'
      constructor
      · simp only [pollUntil, hb]
        rw [IH.1]
        constructor
        · rintro ⟨j, hj, hjt⟩
          exact ⟨j + 1, by omega,
            by rwa [show start + (j + 1) = start + 1 + j by omega]⟩
        · rintro ⟨j, hj, hjt⟩
          cases j with
          | zero => rw [Nat.add_zero, hb] at hjt; cases hjt
          | succ j' =>
            exact ⟨j', by omega,
              by rwa [show start + 1 + j' = start + (j' + 1) by omega]⟩
      · simp only [pollUntil, hb]
        rw [IH.2]
        constructor
        · intro hall j hj
          cases j with
          | zero => rw [Nat.add_zero]; exact hb
          | succ j' =>
            rw [show start + (j' + 1) = start + 1 + j' by omega]
            exact hall j' (by omega)
        · intro hall j hj
          rw [show start + 1 + j = start + (j + 1) by omega]
          exact hall (j + 1) (by omega)

/-- Claim C7 (amended): when the node listing never errors, `waitForNodes`
succeeds iff some check within the deadline sees every listed node ready, and
times out iff every check within the deadline sees at least one node not
ready (so "some node never observed ready" is not equivalent: readiness may
alternate between nodes across checks). -/
theorem waitForNodes_success_timeout_iff
    (listNodes : Nat → Except String (List KNode)) (checks : Nat)
    (hq : ∀ t, t < checks → ∃ ns, listNodes t = .ok ns) :
    (waitForNodes listNodes checks = .success ↔
       ∃ t, t < checks ∧ allNodesReady listNodes t) ∧
    (waitForNodes listNodes checks = .timeout ↔
       ∀ t, t < checks → ¬ allNodesReady listNodes t) := by
  have hq' : ∀ j, j < checks →
      ∃ b, (listNodes (0 + j)).map (fun nodes => nodes.all isNodeReady)
        = .ok b := by
    intro j hj
    obtain ⟨ns, hns⟩ := hq j hj
    exact ⟨ns.all isNodeReady, by rw [Nat.zero_add, hns]; rfl⟩
  have hs := pollUntil_spec
    (fun t => (listNodes t).map (fun nodes => nodes.all isNodeReady))
    checks 0 hq'
  have hchar : ∀ j, j < checks →
      (((listNodes j).map (fun nodes => nodes.all isNodeReady) = .ok true) ↔
        allNodesReady listNodes j) := by
    intro j hj
    obtain ⟨ns, hns⟩ := hq j hj
    rw [hns]
    constructor
    · intro hok
      simp only [Except.map, Except.ok.injEq] at hok
      exact ⟨ns, hns, hok⟩
    · rintro ⟨ns', hns', hall⟩
      rw [hns] at hns'
      injection hns' with he
      subst he
      simp only [Except.map, Except.ok.injEq]
      exact hall
  have hcharf : ∀ j, j < checks →
      (((listNodes j).map (fun nodes => nodes.all isNodeReady) = .ok false) ↔
        ¬ allNodesReady listNodes j) := by
    intro j hj
    obtain ⟨ns, hns⟩ := hq j hj
    rw [hns]
    constructor
    · intro hok hready
      obtain ⟨ns', hns', hall⟩ := hready
      rw [hns] at hns'
      injection hns' with he
      subst he
      simp only [Except.map, Except.ok.injEq] at hok
      rw [hall] at hok
      cases hok
    · intro hnot
      simp only [Except.map, Except.ok.injEq]
      cases hv : ns.all isNodeReady with
      | true => exact absurd ⟨ns, hns, hv⟩ hnot
      | false => rfl
  constructor
  · rw [show waitForNodes listNodes checks =
        pollUntil (fun t => (listNodes t).map
          (fun nodes => nodes.all isNodeReady)) checks 0 from rfl]
    rw [hs.1]
    constructor
    · rintro ⟨j, hj, hjt⟩
      rw [Nat.zero_add] at hjt
      exact ⟨j, hj, (hchar j hj).1 hjt⟩
    · rintro ⟨j, hj, hjt⟩
      exact ⟨j, hj, by rw [Nat.zero_add]; exact (hchar j hj).2 hjt⟩
  · rw [show waitForNodes listNodes checks =
        pollUntil (fun t => (listNodes t).map
          (fun nodes => nodes.all isNodeReady)) checks 0 from rfl]
    rw [hs.2]
    constructor
    · intro hall j hj
      exact (hcharf j hj).1 (by rw [← Nat.zero_add j]; exact hall j hj)
    · intro hall j hj
      rw [Nat.zero_add]
      exact (hcharf j hj).2 (hall j hj)

/-- Claim C7 counterexample: with two nodes whose readiness alternates across
checks, the poller times out even though every node was observed ready at
some check — so "Timeout iff at least one node never observed ready" fails
as stated. -/
theorem waitForNodes_alternating_counterexample :
    waitForNodes exListNodes 2 = .timeout ∧
    nodeObservedReady exListNodes "n1" 1 = true ∧
    nodeObservedReady exListNodes "n2" 0 = true := by
  refine ⟨?_, ?_, ?_⟩ <;> rfl

/-- Witness for the amended poller characterization at a concrete input:
two checks against `exListNodes` never see all nodes ready, so the
characterization yields a timeout. -/
theorem waitForNodes_success_timeout_iff_witness :
    waitForNodes exListNodes 2 = .timeout :=
  ((waitForNodes_success_timeout_iff exListNodes 2
    (by intro t ht
        by_cases h0 : t = 0
        · exact ⟨_, by rw [h0]; rfl⟩
        · exact ⟨_, by unfold exListNodes; rw [if_neg h0]⟩)).2).mpr
    (by decide)

/-- Claim C10: when the node listing returns no nodes at the immediate first
check, `waitForNodes` succeeds at once — the all-nodes-ready condition is
vacuously true — for any positive number of available checks, regardless of
later listings. -/
theorem waitForNodes_empty_immediate_success
    (listNodes : Nat → Except String (List KNode)) (checks : Nat)
    (hempty : listNodes 0 = .ok []) (hchecks : 1 ≤ checks) :
    waitForNodes listNodes checks = .success := by
  obtain ⟨c, rfl⟩ : ∃ c, checks = c + 1 :=
    ⟨checks - 1, by omega⟩
  unfold waitForNodes pollUntil
  rw [hempty]
  rfl

/-- Witness for claim C10 at a concrete input. -/
theorem waitForNodes_empty_immediate_success_witness :
    waitForNodes (fun _ => .ok []) 1 = .success :=
  waitForNodes_empty_immediate_success (fun _ => .ok []) 1 rfl
    (by omega)

/-- The backoff actually slept at `counter` equals
`WAIT_TIMES[min(counter, len-1)]`. -/
theorem waitTimeAt_eq (counter : Nat) :
    waitTimeAt counter = WAIT_TIMES.getD (min counter (WAIT_TIMES.length - 1)) 0 := by
  unfold waitTimeAt WAIT_TIMES
  by_cases h : counter < 7
  · simp only [List.length]
    rw [if_pos (by simpa using h)]
    congr 1
    omega
  · simp only [List.length]
    rw [if_neg (by simpa using h)]
    congr 1
    omega

/-- Exact run of the retry loop: if the probe fails on attempts
`attempt .. attempt+m-1` and succeeds on `attempt+m`, with `m` below the
remaining budget, the loop returns that attempt and the accumulated sleep. -/
theorem retryAux_spec (probe : Nat → Bool) :
    ∀ (m left attempt counter slept : Nat), m < left →
    (∀ j, j < m → probe (attempt + j) = false) →
    probe (attempt + m) = true →
    retryAux probe left attempt counter slept =
      some (attempt + m,
        slept + ((List.range m).map (fun i => waitTimeAt (counter + i))).sum) := by
  intro m
  induction m with
  | zero =>
    intro left attempt counter slept hlt hfail hsucc
    obtain ⟨l', rfl⟩ : ∃ l', left = l' + 1 := ⟨left - 1, by omega⟩
    rw [Nat.add_zero] at hsucc
    simp [retryAux, hsucc]
  | succ m' ih =>
    intro left attempt counter slept hlt hfail hsucc
    obtain ⟨l', rfl⟩ : ∃ l', left = l' + 1 := ⟨left - 1, by omega⟩
    have h0 : probe attempt = false := by
      have := hfail 0 (Nat.succ_pos m')
      rwa [Nat.add_zero] at this
    have hl' : l' ≠ 0 := by omega
    rw [retryAux, if_neg (by rw [h0]; exact Bool.false_ne_true), if_neg hl']
    have hrec := ih l' (attempt + 1) (counter + 1)
      (slept + waitTimeAt counter) (by omega)
      (by intro j hj
          have := hfail (j + 1) (by omega)
          rwa [show attempt + (j + 1) = attempt + 1 + j by omega] at this)
      (by rwa [show attempt + 1 + m' = attempt + (m' + 1) by omega])
    rw [hrec]
    have hfun : (List.range m').map (fun i => waitTimeAt (counter + 1 + i)) =
        (List.range m').map ((fun i => waitTimeAt (counter + i)) ∘ Nat.succ) := by
      apply List.map_congr_left
      intro a _
      simp only [Function.comp, Nat.succ_eq_add_one]
      congr 1
      omega
    rw [List.range_succ_eq_map]
    simp only [List.map_cons, List.map_map, List.sum_cons, Nat.add_zero]
    rw [hfun]
    have hat : attempt + 1 + m' = attempt + (m' + 1) := by omega
    rw [hat, Nat.add_assoc]

/-- Claim C8: a probe failing on exactly its first `k` calls
(`k < MAX_RETRIES`) and succeeding on call `k+1` makes the retry loop succeed
after exactly `k+1` attempts, having slept the sum of
`WAIT_TIMES[min(i, len-1)]` for `i = 0 .. k-1`, with no sleep after the
successful attempt. -/
theorem runRetry_k_failures (probe : Nat → Bool) (k : Nat)
    (hk : k + 1 ≤ MAX_RETRIES)
    (hfail : ∀ j, j < k → probe (1 + j) = false)
    (hsucc : probe (1 + k) = true) :
    runRetry probe = some (k + 1, sleepSum k) := by
  unfold runRetry
  have h := retryAux_spec probe k MAX_RETRIES 1 0 0 (by omega) hfail hsucc
  rw [h]
  congr 1
  refine congrArg₂ Prod.mk (by omega) ?_
  rw [Nat.zero_add]
  unfold sleepSum
  congr 1
  apply List.map_congr_left
  intro a _
  rw [Nat.zero_add, waitTimeAt_eq]

/-- Witness for claim C8 at a concrete probe: nine failures then success on
the tenth attempt sleeps 1+2+3+5+10+20+30+30+30 = 131. -/
theorem runRetry_k_failures_witness :
    runRetry (fun a => 10 ≤ a) = some (10, 131) := by
  have h := runRetry_k_failures (fun a => 10 ≤ a) 9 (by decide)
    (by decide) (by decide)
  rw [h]
  rfl

/-- Claim C9: a failure of `measurements.Stop()` only inserts a `log.Error`
step; the orchestration continues through the identical tail — post-scale
machine snapshot, diffing of previous machines, metrics finalization, and
the revert when `gc` is set — exactly as in the no-failure run. -/
theorem orchestrateWorkload_stop_error_nonfatal (msg : String) (gc : Bool) :
    orchestrateWorkload (some msg) gc =
      [.getMachineSets, .getMachines, .setupMetrics, .measurementsStart,
       .adjustStep, .editMachineSets true] ++ [.logErr msg] ++ orchTail gc ∧
    orchestrateWorkload none gc =
      [.getMachineSets, .getMachines, .setupMetrics, .measurementsStart,
       .adjustStep, .editMachineSets true] ++ orchTail gc :=
  ⟨rfl, rfl⟩

/-- Claim C5: two pools at replica count 2 with three additional workers give
the plan A: 2 to 4, B: 2 to 3. -/
theorem adjustMachineSets_two_pools_scenario :
    adjustMachineSets [(2, ["A", "B"])] 3 =
      .ok [("A", ⟨2, 4⟩), ("B", ⟨2, 3⟩)] := by
  rfl

/-- Claim C1 counterexample: a well-formed single-pool grouping with the
desired additional count 0 (so N ≥ 1 and D ≥ 0) makes `adjustMachineSets`
fault with Go's index-out-of-range panic on `keys[index+1]` instead of
returning a plan. -/
theorem adjustMachineSets_d_zero_counterexample :
    WFGrouping [(2, ["A"])] ∧
    adjustMachineSets [(2, ["A"])] 0 = .error "index out of range" :=
  ⟨by decide, rfl⟩

/-- Claim C2 counterexample: a well-formed non-empty grouping with a single
replica-count group and D = -1 ≤ 0 faults with the index-out-of-range panic
rather than returning an empty plan. -/
theorem adjustMachineSets_d_neg_counterexample :
    WFGrouping [(3, ["A", "B"])] ∧
    adjustMachineSets [(3, ["A", "B"])] (-1) =
      .error "index out of range" :=
  ⟨by decide, rfl⟩

/-- Claim C6 counterexample: pools starting at 1 and 5 with D = 1: the plan
only raises A to 2, B stays at its starting count 5, so two fleet pools end
more than one apart. -/
theorem adjustMachineSets_skew_counterexample :
    WFGrouping [(1, ["A"]), (5, ["B"])] ∧
    adjustMachineSets [(1, ["A"]), (5, ["B"])] 1 =
      .ok [("A", ⟨1, 2⟩)] ∧
    startOf [(1, ["A"]), (5, ["B"])] "B" = some 5 ∧
    planLoad [("A", (⟨1, 2⟩ : MachineSetInfo))] "B" = none ∧
    2 + 1 < 5 :=
  ⟨by decide, rfl, rfl, rfl, by omega⟩

/-- The `prevReplicas` an event replay keeps: the existing one when the pool
is already planned, else the event's level. -/
def prevOf (pl : Plan) (p : String) (L : Nat) : Nat :=
  match planLoad pl p with
  | some i => i.prevReplicas
  | none => L

/-- Events for a batch of pools all incremented from the same level. -/
def batchEvents (ps : List String) (L : Nat) : Trace :=
  ps.map (fun p => (p, L))

/-- Repeated `machineSetReplicas[k] = append(...)` for a batch of names. -/
def foldAppend (g : Grouping) (k : Nat) (ps : List String) : Grouping :=
  ps.foldl (fun h p => groupAppend h k p) g

theorem planLoad_planStore (pl : Plan) (p : String) (i : MachineSetInfo)
    (q : String) :
    planLoad (planStore pl p i) q = if p = q then some i else planLoad pl q := by
  induction pl with
  | nil =>
    by_cases h : p = q <;> simp [planStore, planLoad, h]
  | cons e rest ih =>
    obtain ⟨r, j⟩ := e
    by_cases hrp : r = p
    · subst hrp
      by_cases hq : r = q
      · subst hq
        simp [planStore, planLoad]
      · simp [planStore, planLoad, hq, if_neg hq]
    · by_cases hq : r = q
      · subst hq
        have hpq : p ≠ r := fun h => hrp h.symm
        simp [planStore, planLoad, hrp, hpq]
      · simp [planStore, planLoad, hrp, hq, ih]

theorem planStore_planStore (pl : Plan) (p : String)
    (i j : MachineSetInfo) :
    planStore (planStore pl p i) p j = planStore pl p j := by
  induction pl with
  | nil => simp [planStore]
  | cons e rest ih =>
    obtain ⟨r, k⟩ := e
    by_cases hrp : r = p
    · subst hrp
      simp [planStore]
    · simp [planStore, hrp, ih]

theorem planSum_planStore_some (pl : Plan) (p : String)
    (i j : MachineSetInfo) (hl : planLoad pl p = some i) :
    planSum (planStore pl p j) = planSum pl +
      ((j.currentReplicas : Int) - (j.prevReplicas : Int)) -
      ((i.currentReplicas : Int) - (i.prevReplicas : Int)) := by
  induction pl with
  | nil => cases hl
  | cons e rest ih =>
    obtain ⟨r, k⟩ := e
    by_cases hrp : r = p
    · subst hrp
      have h2 : k = i := by
        have : planLoad ((r, k) :: rest) r = some k := by simp [planLoad]
        rw [this] at hl
        exact (Option.some.inj hl)
      subst h2
      have h1 : planStore ((r, k) :: rest) r j = (r, j) :: rest := by
        simp [planStore]
      rw [h1]
      simp only [planSum]
      ring
    · have hl' : planLoad rest p = some i := by
        have : planLoad ((r, k) :: rest) p = planLoad rest p := by
          simp [planLoad, hrp]
        rwa [this] at hl
      have h1 : planStore ((r, k) :: rest) p j =
          (r, k) :: planStore rest p j := by
        simp [planStore, hrp]
      rw [h1]
      simp only [planSum]
      rw [ih hl']
      ring

theorem planSum_planStore_none (pl : Plan) (p : String)
    (j : MachineSetInfo) (hl : planLoad pl p = none) :
    planSum (planStore pl p j) = planSum pl +
      ((j.currentReplicas : Int) - (j.prevReplicas : Int)) := by
  induction pl with
  | nil => simp [planStore, planSum]
  | cons e rest ih =>
    obtain ⟨r, k⟩ := e
    by_cases hrp : r = p
    · subst hrp
      have : planLoad ((r, k) :: rest) r = some k := by simp [planLoad]
      rw [this] at hl
      cases hl
    · have hl' : planLoad rest p = none := by
        have : planLoad ((r, k) :: rest) p = planLoad rest p := by
          simp [planLoad, hrp]
        rwa [this] at hl
      have h1 : planStore ((r, k) :: rest) p j =
          (r, k) :: planStore rest p j := by
        simp [planStore, hrp]
      rw [h1]
      simp only [planSum]
      rw [ih hl']
      ring

theorem applyEvent_def (pl : Plan) (p : String) (L : Nat) :
    applyEvent pl (p, L) = planStore pl p ⟨prevOf pl p L, L + 1⟩ := by
  unfold applyEvent prevOf
  cases planLoad pl p <;> rfl

theorem planLoad_applyEvent (pl : Plan) (p : String) (L : Nat) (q : String) :
    planLoad (applyEvent pl (p, L)) q =
      if p = q then some ⟨prevOf pl p L, L + 1⟩ else planLoad pl q := by
  rw [applyEvent_def, planLoad_planStore]

theorem planSum_applyEvent (pl : Plan) (p : String) (L : Nat)
    (h : ∀ i, planLoad pl p = some i → i.currentReplicas = L) :
    planSum (applyEvent pl (p, L)) = planSum pl + 1 := by
  rw [applyEvent_def]
  cases hl : planLoad pl p with
  | none =>
    have hp : prevOf pl p L = L := by unfold prevOf; rw [hl]
    rw [planSum_planStore_none pl p _ hl, hp]
    push_cast
    ring
  | some i =>
    have hc := h i hl
    have hp : prevOf pl p L = i.prevReplicas := by unfold prevOf; rw [hl]
    rw [planSum_planStore_some pl p i _ hl, hp, hc]
    push_cast
    ring

theorem applyEvents_nil (pl : Plan) : applyEvents pl [] = pl := rfl

theorem applyEvents_cons (pl : Plan) (ev : String × Nat) (evs : Trace) :
    applyEvents pl (ev :: evs) = applyEvents (applyEvent pl ev) evs := rfl

theorem applyEvents_append (pl : Plan) (a b : Trace) :
    applyEvents pl (a ++ b) = applyEvents (applyEvents pl a) b := by
  unfold applyEvents
  rw [List.foldl_append]

theorem planLoad_applyEvents_batch_notMem (L : Nat) :
    ∀ (ps : List String) (pl : Plan) (p : String), p ∉ ps →
    planLoad (applyEvents pl (batchEvents ps L)) p = planLoad pl p := by
  intro ps
  induction ps with
  | nil => intro pl p _; rfl
  | cons q rest ih =>
    intro pl p hp
    have hq : q ≠ p := fun h => hp (h ▸ List.mem_cons_self q rest)
    have hrest : p ∉ rest := fun h => hp (List.mem_cons_of_mem q h)
    rw [show batchEvents (q :: rest) L = (q, L) :: batchEvents rest L from rfl,
      applyEvents_cons, ih _ p hrest, planLoad_applyEvent, if_neg hq]

theorem planLoad_applyEvents_batch_mem (L : Nat) :
    ∀ (ps : List String) (pl : Plan) (p : String), ps.Nodup → p ∈ ps →
    planLoad (applyEvents pl (batchEvents ps L)) p =
      some ⟨prevOf pl p L, L + 1⟩ := by
  intro ps
  induction ps with
  | nil => intro pl p _ hp; cases hp
  | cons q rest ih =>
    intro pl p hnd hp
    rw [show batchEvents (q :: rest) L = (q, L) :: batchEvents rest L from rfl,
      applyEvents_cons]
    by_cases hpq : p = q
    · subst hpq
      have hnot : p ∉ rest := (List.nodup_cons.mp hnd).1
      rw [planLoad_applyEvents_batch_notMem L rest _ p hnot,
        planLoad_applyEvent, if_pos rfl]
    · have hrest : p ∈ rest := (List.mem_cons.mp hp).resolve_left hpq
      rw [ih _ p (List.nodup_cons.mp hnd).2 hrest]
      have : prevOf (applyEvent pl (q, L)) p L = prevOf pl p L := by
        unfold prevOf
        rw [planLoad_applyEvent, if_neg (fun h => hpq h.symm)]
      rw [this]

theorem planSum_applyEvents_batch (L : Nat) :
    ∀ (ps : List String) (pl : Plan), ps.Nodup →
    (∀ p ∈ ps, ∀ i, planLoad pl p = some i → i.currentReplicas = L) →
    planSum (applyEvents pl (batchEvents ps L)) =
      planSum pl + ps.length := by
  intro ps
  induction ps with
  | nil => intro pl _ _; simp [applyEvents_nil, batchEvents]
  | cons q rest ih =>
    intro pl hnd hcur
    rw [show batchEvents (q :: rest) L = (q, L) :: batchEvents rest L from rfl,
      applyEvents_cons]
    have hq := planSum_applyEvent pl q L
      (hcur q (List.mem_cons_self q rest))
    have hrest : ∀ p ∈ rest, ∀ i,
        planLoad (applyEvent pl (q, L)) p = some i →
        i.currentReplicas = L := by
      intro p hp i hload
      by_cases hpq : q = p
      · subst hpq
        exact absurd hp (List.nodup_cons.mp hnd).1
      · rw [planLoad_applyEvent, if_neg hpq] at hload
        exact hcur p (List.mem_cons_of_mem q hp) i hload
    rw [ih _ (List.nodup_cons.mp hnd).2 hrest, hq]
    simp only [List.length_cons]
    push_cast
    ring

theorem groupLoad_groupSet (g : Grouping) (k : Nat) (l : List String)
    (k' : Nat) :
    groupLoad (groupSet g k l) k' =
      if k = k' then some l else groupLoad g k' := by
  induction g with
  | nil =>
    by_cases h : k = k' <;> simp [groupSet, groupLoad, h]
  | cons e rest ih =>
    obtain ⟨m, v⟩ := e
    by_cases hmk : m = k
    · subst hmk
      by_cases hk' : m = k'
      · subst hk'
        simp [groupSet, groupLoad]
      · simp [groupSet, groupLoad, hk']
    · by_cases hk' : m = k'
      · subst hk'
        have : k ≠ m := fun h => hmk h.symm
        simp [groupSet, groupLoad, hmk, this]
      · simp [groupSet, groupLoad, hmk, hk', ih]

theorem groupLoad_isSome_iff (g : Grouping) (k : Nat) :
    (groupLoad g k).isSome = true ↔ k ∈ g.map Prod.fst := by
  induction g with
  | nil => simp [groupLoad]
  | cons e rest ih =>
    obtain ⟨m, v⟩ := e
    by_cases hmk : m = k
    · subst hmk
      simp [groupLoad]
    · have : k ≠ m := fun h => hmk h.symm
      simp [groupLoad, hmk, this, ih]

theorem mapFst_groupSet (g : Grouping) (k : Nat) (l : List String) :
    (groupSet g k l).map Prod.fst =
      if k ∈ g.map Prod.fst then g.map Prod.fst
      else g.map Prod.fst ++ [k] := by
  induction g with
  | nil => simp [groupSet]
  | cons e rest ih =>
    obtain ⟨m, v⟩ := e
    by_cases hmk : m = k
    · subst hmk
      simp [groupSet]
    · have hkm : k ≠ m := fun h => hmk h.symm
      by_cases hmem : k ∈ rest.map Prod.fst
      · simp [groupSet, hmk, ih, hmem, hkm]
      · simp [groupSet, hmk, ih, hmem, hkm]

theorem nodup_mapFst_groupSet (g : Grouping) (k : Nat) (l : List String)
    (h : (g.map Prod.fst).Nodup) :
    ((groupSet g k l).map Prod.fst).Nodup := by
  rw [mapFst_groupSet]
  by_cases hmem : k ∈ g.map Prod.fst
  · rwa [if_pos hmem]
  · rw [if_neg hmem]
    have : (g.map Prod.fst ++ [k]).Nodup ↔
        (k :: g.map Prod.fst).Nodup :=
      (List.perm_append_singleton k (g.map Prod.fst)).nodup_iff
    rw [this, List.nodup_cons]
    exact ⟨hmem, h⟩

theorem groupLoad_groupDelete (g : Grouping) (k k' : Nat) :
    groupLoad (groupDelete g k) k' =
      if k' = k then none else groupLoad g k' := by
  induction g with
  | nil => by_cases h : k' = k <;> simp [groupDelete, groupLoad, h]
  | cons e rest ih =>
    obtain ⟨m, v⟩ := e
    by_cases hmk : m = k
    · subst hmk
      by_cases hk' : k' = m
      · subst hk'
        simp [groupDelete, ih]
      · have : m ≠ k' := fun h => hk' h.symm
        simp [groupDelete, groupLoad, ih, hk', this]
    · by_cases hk' : m = k'
      · subst hk'
        simp [groupDelete, groupLoad, hmk, ih]
      · simp [groupDelete, groupLoad, hmk, hk', ih]

theorem groupDelete_sublist (g : Grouping) (k : Nat) :
    (groupDelete g k).Sublist g := by
  induction g with
  | nil => simp [groupDelete]
  | cons e rest ih =>
    obtain ⟨m, v⟩ := e
    by_cases hmk : m = k
    · simp only [groupDelete, if_pos hmk]
      exact ih.cons (m, v)
    · simp only [groupDelete, if_neg hmk]
      exact ih.cons₂ (m, v)

theorem entry_mem_of_groupLoad (g : Grouping) (k : Nat) (l : List String)
    (h : groupLoad g k = some l) : (k, l) ∈ g := by
  induction g with
  | nil => cases h
  | cons e rest ih =>
    obtain ⟨m, v⟩ := e
    by_cases hmk : m = k
    · subst hmk
      have : groupLoad ((m, v) :: rest) m = some v := by simp [groupLoad]
      rw [this] at h
      cases h
      exact List.mem_cons_self _ _
    · have h' : groupLoad rest k = some l := by
        have : groupLoad ((m, v) :: rest) k = groupLoad rest k := by
          simp [groupLoad, hmk]
        rwa [this] at h
      exact List.mem_cons_of_mem _ (ih h')

theorem groupDelete_of_not_mem (g : Grouping) (k : Nat)
    (h : k ∉ g.map Prod.fst) : groupDelete g k = g := by
  induction g with
  | nil => rfl
  | cons e rest ih =>
    obtain ⟨m, v⟩ := e
    have hmk : m ≠ k := by
      intro he
      exact h (by simp [he])
    have hrest : k ∉ rest.map Prod.fst := by
      intro hr
      exact h (by simp [hr])
    simp [groupDelete, hmk, ih hrest]

theorem groupLoad_groupAppend (g : Grouping) (k : Nat) (p : String)
    (k' : Nat) :
    groupLoad (groupAppend g k p) k' =
      if k = k' then some ((groupLoad g k).getD [] ++ [p])
      else groupLoad g k' := by
  unfold groupAppend
  rw [groupLoad_groupSet]

theorem groupLoad_foldAppend (k : Nat) :
    ∀ (ps : List String) (g : Grouping) (k' : Nat),
    groupLoad (foldAppend g k ps) k' =
      if k = k' ∧ ps ≠ [] then some ((groupLoad g k).getD [] ++ ps)
      else groupLoad g k' := by
  intro ps
  induction ps with
  | nil =>
    intro g k'
    simp [foldAppend]
  | cons p rest ih =>
    intro g k'
    rw [show foldAppend g k (p :: rest) =
      foldAppend (groupAppend g k p) k rest from rfl, ih]
    by_cases hk : k = k'
    · subst hk
      by_cases hrest : rest = []
      · subst hrest
        simp [groupLoad_groupAppend]
      · rw [if_pos ⟨rfl, hrest⟩, if_pos ⟨rfl, List.cons_ne_nil p rest⟩,
          groupLoad_groupAppend, if_pos rfl]
        simp [List.append_assoc]
    · by_cases hrest : rest = []
      · subst hrest
        rw [if_neg (by tauto), if_neg (by tauto),
          groupLoad_groupAppend, if_neg hk]
      · rw [if_neg (by tauto), if_neg (by tauto),
          groupLoad_groupAppend, if_neg hk]

theorem mapFst_foldAppend_of_mem (k : Nat) :
    ∀ (ps : List String) (g : Grouping), k ∈ g.map Prod.fst →
    (foldAppend g k ps).map Prod.fst = g.map Prod.fst := by
  intro ps
  induction ps with
  | nil => intro g _; rfl
  | cons p rest ih =>
    intro g hmem
    rw [show foldAppend g k (p :: rest) =
      foldAppend (groupAppend g k p) k rest from rfl]
    have h1 : (groupAppend g k p).map Prod.fst = g.map Prod.fst := by
      unfold groupAppend
      rw [mapFst_groupSet, if_pos hmem]
    rw [ih _ (by rw [h1]; exact hmem), h1]

theorem nodup_mapFst_foldAppend (k : Nat) :
    ∀ (ps : List String) (g : Grouping), (g.map Prod.fst).Nodup →
    ((foldAppend g k ps).map Prod.fst).Nodup := by
  intro ps
  induction ps with
  | nil => intro g h; exact h
  | cons p rest ih =>
    intro g h
    rw [show foldAppend g k (p :: rest) =
      foldAppend (groupAppend g k p) k rest from rfl]
    exact ih _ (nodup_mapFst_groupSet _ _ _ h)

theorem poolsOf_groupAppend_perm (g : Grouping) (k : Nat) (p : String) :
    (poolsOf (groupAppend g k p)).Perm (poolsOf g ++ [p]) := by
  induction g with
  | nil =>
    simp [groupAppend, groupSet, groupLoad, poolsOf]
  | cons e rest ih =>
    obtain ⟨m, l⟩ := e
    by_cases hmk : m = k
    · subst hmk
      have h1 : groupAppend ((m, l) :: rest) m p =
          (m, l ++ [p]) :: rest := by
        simp [groupAppend, groupLoad, groupSet]
      rw [h1]
      show ((l ++ [p]) ++ poolsOf rest).Perm ((l ++ poolsOf rest) ++ [p])
      rw [List.append_assoc, List.append_assoc]
      exact (@List.perm_append_comm _ [p] (poolsOf rest)).append_left l
    · have h1 : groupAppend ((m, l) :: rest) k p =
          (m, l) :: groupAppend rest k p := by
        simp [groupAppend, groupLoad, groupSet, hmk]
      rw [h1]
      show (l ++ poolsOf (groupAppend rest k p)).Perm
        ((l ++ poolsOf rest) ++ [p])
      rw [List.append_assoc]
      exact ih.append_left l

theorem poolsOf_foldAppend_perm (k : Nat) :
    ∀ (ps : List String) (g : Grouping),
    (poolsOf (foldAppend g k ps)).Perm (poolsOf g ++ ps) := by
  intro ps
  induction ps with
  | nil => intro g; simp [foldAppend]
  | cons p rest ih =>
    intro g
    rw [show foldAppend g k (p :: rest) =
      foldAppend (groupAppend g k p) k rest from rfl]
    refine (ih _).trans ?_
    refine ((poolsOf_groupAppend_perm g k p).append_right rest).trans ?_
    rw [List.append_assoc]
    exact List.Perm.refl _

theorem poolsOf_split (g : Grouping) (k : Nat) (l : List String)
    (hn : (g.map Prod.fst).Nodup) (hload : groupLoad g k = some l) :
    (poolsOf g).Perm (l ++ poolsOf (groupDelete g k)) := by
  induction g with
  | nil => cases hload
  | cons e rest ih =>
    obtain ⟨m, lm⟩ := e
    rw [List.map_cons, List.nodup_cons] at hn
    by_cases hmk : m = k
    · subst hmk
      have hv : lm = l := by
        have : groupLoad ((m, lm) :: rest) m = some lm := by simp [groupLoad]
        rw [this] at hload
        exact Option.some.inj hload
      subst hv
      have hdel : groupDelete ((m, lm) :: rest) m = rest := by
        have h1 : groupDelete ((m, lm) :: rest) m = groupDelete rest m := by
          simp [groupDelete]
        rw [h1, groupDelete_of_not_mem rest m hn.1]
      rw [hdel]
      exact List.Perm.refl _
    · have hload' : groupLoad rest k = some l := by
        have : groupLoad ((m, lm) :: rest) k = groupLoad rest k := by
          simp [groupLoad, hmk]
        rwa [this] at hload
      have hdel : groupDelete ((m, lm) :: rest) k =
          (m, lm) :: groupDelete rest k := by
        simp [groupDelete, hmk]
      rw [hdel]
      show (lm ++ poolsOf rest).Perm (l ++ (lm ++ poolsOf (groupDelete rest k)))
      refine ((ih hn.2 hload').append_left lm).trans ?_
      rw [← List.append_assoc, ← List.append_assoc]
      exact (@List.perm_append_comm _ lm l).append_right _

theorem innerLoop_dle (value : Nat) :
    ∀ (sets : List String) (i : Nat) (s : InnerState), s.d ≤ 0 →
    innerLoop value sets i s = s := by
  intro sets
  induction sets with
  | nil => intro i s _; rfl
  | cons ms rest ih =>
    intro i s hd
    rw [innerLoop]
    rw [if_neg (by omega)]

theorem innerLoop_spec (value : Nat) :
    ∀ (sets : List String) (i : Nat) (pl : Plan) (g : Grouping) (d : Int)
      (li : Nat) (tr : Trace) (m : Bool), 0 < d →
    innerLoop value sets i ⟨pl, g, d, li, tr, m⟩ =
      { plan := applyEvents pl
          (batchEvents (sets.take (min sets.length d.toNat)) value),
        g := foldAppend g (value + 1)
          (sets.take (min sets.length d.toNat)),
        d := d - (min sets.length d.toNat : Nat),
        lastIndex := if min sets.length d.toNat = 0 then li
          else i + min sets.length d.toNat - 1,
        trace := tr ++ batchEvents (sets.take (min sets.length d.toNat)) value,
        modified := m || decide (0 < min sets.length d.toNat) } := by
  intro sets
  induction sets with
  | nil =>
    intro i pl g d li tr m hd
    rw [show innerLoop value [] i ⟨pl, g, d, li, tr, m⟩ =
      ⟨pl, g, d, li, tr, m⟩ from rfl]
    simp [applyEvents, foldAppend, batchEvents]
  | cons ms rest ih =>
    intro i pl g d li tr m hd
    have hstep : innerLoop value (ms :: rest) i ⟨pl, g, d, li, tr, m⟩ =
        innerLoop value rest (i + 1)
          ⟨applyEvent pl (ms, value), groupAppend g (value + 1) ms, d - 1,
           i, tr ++ [(ms, value)], true⟩ := by
      rw [innerLoop]
      rw [if_pos (by exact hd)]
      cases hld : planLoad pl ms with
      | some j => simp [hld, applyEvent_def, prevOf]
      | none =>
        simp [hld, applyEvent_def, prevOf, planLoad_planStore,
          planStore_planStore]
    rw [hstep]
    by_cases hd1 : d - 1 ≤ 0
    · have hd1' : d = 1 := by omega
      subst hd1'
      rw [innerLoop_dle value rest (i + 1) _ (by simp)]
      have hn : min (ms :: rest).length (1 : Int).toNat = 1 := by
        simp
      rw [hn]
      have ht : (ms :: rest).take 1 = [ms] := by simp
      rw [ht]
      simp [batchEvents, applyEvents, foldAppend]
    · have hrec := ih (i + 1) (applyEvent pl (ms, value))
        (groupAppend g (value + 1) ms) (d - 1) i (tr ++ [(ms, value)])
        true (by omega)
      rw [hrec]
      have hn' : min rest.length (d - 1).toNat + 1 =
          min (ms :: rest).length d.toNat := by
        simp only [List.length_cons]
        omega
      rw [← hn']
      have htake : (ms :: rest).take (min rest.length (d - 1).toNat + 1) =
          ms :: rest.take (min rest.length (d - 1).toNat) := by
        rw [List.take_succ_cons]
      rw [htake]
      simp only [InnerState.mk.injEq]
      refine ⟨?_, ?_, ?_, ?_, ?_, ?_⟩
      · rw [show batchEvents (ms :: rest.take (min rest.length (d - 1).toNat))
            value = (ms, value) :: batchEvents
              (rest.take (min rest.length (d - 1).toNat)) value from rfl]
        rw [applyEvents_cons]
      · rfl
      · push_cast
        ring
      · by_cases hz : min rest.length (d - 1).toNat = 0
        · rw [hz]
          simp
        · rw [if_neg hz, if_neg (by omega)]
          omega
      · rw [show batchEvents (ms :: rest.take (min rest.length (d - 1).toNat))
            value = (ms, value) :: batchEvents
              (rest.take (min rest.length (d - 1).toNat)) value from rfl]
        simp
      · simp

theorem drop_eq_getD_cons {keys : List Nat} {index : Nat}
    (h : index < keys.length) :
    keys.drop index = keys.getD index 0 :: keys.drop (index + 1) := by
  rw [List.getD_eq_getElem keys 0 h]
  exact List.drop_eq_getElem_cons h

theorem sorted_take_le {keys : List Nat} {index : Nat}
    (hs : keys.Pairwise (· < ·)) (h : index < keys.length) :
    ∀ a ∈ keys.take (index + 1), a ≤ keys.getD index 0 := by
  intro a ha
  have htf : keys.take (index + 1) = keys.take index ++ [keys.getD index 0] := by
    rw [List.take_succ]
    congr 1
    rw [List.getElem?_eq_getElem h, List.getD_eq_getElem keys 0 h]
    rfl
  rw [htf] at ha
  rcases List.mem_append.mp ha with hl | hr
  · have hsplit : keys = keys.take index ++ keys.drop index :=
      (List.take_append_drop _ _).symm
    have hp : (keys.take index ++ keys.drop index).Pairwise (· < ·) := by
      rw [← hsplit]; exact hs
    have hcross := (List.pairwise_append.mp hp).2.2
    have hmem : keys.getD index 0 ∈ keys.drop index := by
      rw [drop_eq_getD_cons h]
      exact List.mem_cons_self _ _
    exact le_of_lt (hcross a hl _ hmem)
  · rw [List.mem_singleton.mp hr]

theorem sorted_drop_gt {keys : List Nat} {index : Nat}
    (hs : keys.Pairwise (· < ·)) (h : index < keys.length) :
    ∀ x ∈ keys.drop (index + 1), keys.getD index 0 < x := by
  intro x hx
  have hsub : (keys.drop index).Pairwise (· < ·) :=
    hs.sublist (List.drop_sublist index keys)
  rw [drop_eq_getD_cons h] at hsub
  exact (List.pairwise_cons.mp hsub).1 x hx

theorem startOf_mem_keys : ∀ (g : Grouping) (q : String) (k : Nat),
    startOf g q = some k → k ∈ g.map Prod.fst := by
  intro g
  induction g with
  | nil => intro q k h; cases h
  | cons e rest ih =>
    intro q k h
    obtain ⟨m, l⟩ := e
    by_cases hq : q ∈ l
    · have : startOf ((m, l) :: rest) q = some m := by simp [startOf, hq]
      rw [this] at h
      cases h
      simp
    · have : startOf ((m, l) :: rest) q = startOf rest q := by
        simp [startOf, hq]
      rw [this] at h
      simp [ih q k h]

theorem startOf_groupLoad : ∀ (g : Grouping) (q : String) (k : Nat),
    (g.map Prod.fst).Nodup → startOf g q = some k →
    q ∈ listAt g k := by
  intro g
  induction g with
  | nil => intro q k _ h; cases h
  | cons e rest ih =>
    intro q k hn h
    obtain ⟨m, l⟩ := e
    rw [List.map_cons, List.nodup_cons] at hn
    by_cases hq : q ∈ l
    · have he : startOf ((m, l) :: rest) q = some m := by simp [startOf, hq]
      rw [he] at h
      have hmk : m = k := Option.some.inj h
      subst hmk
      unfold listAt
      have hgl : groupLoad ((m, l) :: rest) m = some l := by simp [groupLoad]
      rw [hgl]
      exact hq
    · have he : startOf ((m, l) :: rest) q = startOf rest q := by
        simp [startOf, hq]
      rw [he] at h
      have hkm : m ≠ k := by
        intro hk
        subst hk
        exact hn.1 (startOf_mem_keys rest q m h)
      have hgl : groupLoad ((m, l) :: rest) k = groupLoad rest k := by
        simp [groupLoad, hkm]
      unfold listAt
      rw [hgl]
      exact ih q k hn.2 h

theorem batchEvents_mem_snd {ps : List String} {L : Nat}
    {ev : String × Nat} (h : ev ∈ batchEvents ps L) : ev.2 = L := by
  unfold batchEvents at h
  obtain ⟨p, _, hp⟩ := List.mem_map.mp h
  rw [← hp]

theorem batchEvents_map_fst (ps : List String) (L : Nat) :
    (batchEvents ps L).map Prod.fst = ps := by
  unfold batchEvents
  rw [List.map_map]
  exact List.map_id ps

theorem Leveling_extend (g0 : Grouping) (tr : Trace) (L : Nat)
    (ps : List String) (hlev : Leveling g0 tr)
    (ht4 : ∀ q k, startOf g0 q = some k → k < L → q ∈ tr.map Prod.fst) :
    Leveling g0 (tr ++ batchEvents ps L) := by
  intro t1 p' L' t2 heq hp' q k hst hk
  rcases List.append_eq_append_iff.mp heq.symm with ⟨a', ha1, ha2⟩ |
    ⟨c', hc1, hc2⟩
  · cases a' with
    | nil =>
      rw [List.append_nil] at ha1
      rw [List.nil_append] at ha2
      have hev : (p', L') ∈ batchEvents ps L := by
        rw [← ha2]
        exact List.mem_cons_self _ _
      have hL' : L' = L := batchEvents_mem_snd hev
      have hq : q ∈ tr.map Prod.fst := ht4 q k hst (hL' ▸ hk)
      rwa [ha1] at hq
    | cons ev a'' =>
      have ha2' : (p', L') :: t2 = ev :: (a'' ++ batchEvents ps L) := ha2
      injection ha2' with h1 h2
      subst h1
      exact hlev t1 p' L' a'' ha1 hp' q k hst hk
  · have hev : (p', L') ∈ batchEvents ps L := by
      rw [hc2]
      exact List.mem_append_right c' (List.mem_cons_self _ _)
    have hL' : L' = L := batchEvents_mem_snd hev
    have hq : q ∈ tr.map Prod.fst := ht4 q k hst (hL' ▸ hk)
    rw [hc1, List.map_append]
    exact List.mem_append_left _ hq

theorem nodup_listAt {g : Grouping} {k : Nat} {sets : List String}
    (hn : (g.map Prod.fst).Nodup) (hp : (poolsOf g).Nodup)
    (hload : groupLoad g k = some sets) : sets.Nodup := by
  have hperm := poolsOf_split g k sets hn hload
  have : (sets ++ poolsOf (groupDelete g k)).Nodup := hperm.nodup_iff.mp hp
  exact (List.nodup_append.mp this).1

theorem disjoint_listAt {g : Grouping} {k : Nat} {sets : List String}
    (hn : (g.map Prod.fst).Nodup) (hp : (poolsOf g).Nodup)
    (hload : groupLoad g k = some sets) :
    ∀ p ∈ sets, p ∉ poolsOf (groupDelete g k) := by
  have hperm := poolsOf_split g k sets hn hload
  have : (sets ++ poolsOf (groupDelete g k)).Nodup := hperm.nodup_iff.mp hp
  intro p hps hpd
  exact (List.disjoint_of_nodup_append this) hps hpd

theorem mem_poolsOf_of_listAt {g : Grouping} {k : Nat} {p : String}
    (h : p ∈ listAt g k) : p ∈ poolsOf g := by
  unfold listAt at h
  cases hload : groupLoad g k with
  | none => rw [hload] at h; cases h
  | some l =>
    rw [hload] at h
    simp only [Option.getD_some] at h
    have hmem := entry_mem_of_groupLoad g k l hload
    unfold poolsOf
    rw [List.mem_flatten]
    exact ⟨l, List.mem_map.mpr ⟨(k, l), hmem, rfl⟩, h⟩

theorem getD_eq_of_drop_cons :
    ∀ {l : List Nat} {nn x : Nat} {t : List Nat},
    l.drop nn = x :: t → l.getD nn 0 = x := by
  intro l
  induction l with
  | nil => intro nn x t h; rw [List.drop_nil] at h; cases h
  | cons a l' ih =>
    intro nn x t h
    cases nn with
    | zero =>
      rw [List.drop_zero] at h
      injection h with h1 _
    | succ m =>
      have hd : (a :: l').drop (m + 1) = l'.drop m := rfl
      rw [hd] at h
      have := ih h
      rw [show (a :: l').getD (m + 1) 0 = l'.getD m 0 from rfl]
      exact this

theorem pairwise_le_of_all_eq {l : List Nat} {c : Nat}
    (h : ∀ x ∈ l, x = c) : l.Pairwise (· ≤ ·) := by
  induction l with
  | nil => exact List.Pairwise.nil
  | cons a rest ih =>
    refine List.pairwise_cons.mpr ⟨?_, ih (fun x hx => h x (by simp [hx]))⟩
    intro b hb
    rw [h a (by simp), h b (by simp [hb])]

theorem insertKey_facts (keys : List Nat) (index value : Nat)
    (hs : keys.Pairwise (· < ·)) (hidx : index < keys.length)
    (hval : keys.getD index 0 = value)
    (hnotnext : ∀ h2 : index + 1 < keys.length,
      keys.getD (index + 1) 0 ≠ value + 1) :
    (insertKey keys index (value + 1)).Pairwise (· < ·) ∧
    index + 1 < (insertKey keys index (value + 1)).length ∧
    (insertKey keys index (value + 1)).getD (index + 1) 0 = value + 1 ∧
    (∀ k, k ∈ (insertKey keys index (value + 1)).drop (index + 1) ↔
      (k = value + 1 ∨ k ∈ keys.drop (index + 1))) := by
  have hlen : (keys.take (index + 1)).length = index + 1 := by
    rw [List.length_take]
    omega
  have hdrop : (insertKey keys index (value + 1)).drop (index + 1) =
      (value + 1) :: keys.drop (index + 1) := by
    unfold insertKey
    have h := List.drop_left (keys.take (index + 1))
      ((value + 1) :: keys.drop (index + 1))
    rwa [hlen] at h
  have hdropgt : ∀ x ∈ keys.drop (index + 1), value + 1 < x := by
    intro x hx
    by_cases h2 : index + 1 < keys.length
    · have hx0 : keys.getD (index + 1) 0 < x ∨ keys.getD (index + 1) 0 = x := by
        rw [drop_eq_getD_cons h2] at hx
        rcases List.mem_cons.mp hx with h | h
        · right; exact h.symm
        · left; exact sorted_drop_gt hs h2 x h
      have hhead_gt : value < keys.getD (index + 1) 0 := by
        have := sorted_drop_gt hs hidx (keys.getD (index + 1) 0)
          (by rw [drop_eq_getD_cons h2]; exact List.mem_cons_self _ _)
        rwa [hval] at this
      have hhead_ne := hnotnext h2
      rcases hx0 with h | h
      · omega
      · omega
    · have : keys.drop (index + 1) = [] := by
        rw [List.drop_eq_nil_iff]
        omega
      rw [this] at hx
      cases hx
  refine ⟨?_, ?_, ?_, ?_⟩
  · unfold insertKey
    rw [List.pairwise_append]
    refine ⟨hs.sublist (List.take_sublist _ _), ?_, ?_⟩
    · rw [List.pairwise_cons]
      refine ⟨hdropgt, hs.sublist (List.drop_sublist _ _)⟩
    · intro a ha b hb
      have ha' : a ≤ value := by
        have := sorted_take_le hs hidx a ha
        rwa [hval] at this
      rcases List.mem_cons.mp hb with h | h
      · omega
      · have := sorted_drop_gt hs hidx b h
        rw [hval] at this
        omega
  · unfold insertKey
    rw [List.length_append, hlen]
    simp
  · exact getD_eq_of_drop_cons hdrop
  · intro k
    rw [hdrop]
    exact List.mem_cons

/-- The loop invariant of the balancer's outer loop, relating the key list,
the grouping, the plan, and the event trace to the original grouping `g0`.
`keys.getD index 0` is the replica-count level about to be processed. -/
structure LoopInv (g0 : Grouping) (keys : List Nat) (index : Nat) (g : Grouping)
    (plan : Plan) (trace : Trace) : Prop where
  sorted : keys.Pairwise (· < ·)
  hidx : index < keys.length
  gkeys : ∀ k, k ∈ keys.drop index ↔ k ∈ g.map Prod.fst
  gKeysNodup : (g.map Prod.fst).Nodup
  gNonempty : ∀ e ∈ g, e.2 ≠ []
  gPoolsNodup : (poolsOf g).Nodup
  planCurr : ∀ p i, planLoad plan p = some i →
    i.currentReplicas = keys.getD index 0
  planInG : ∀ p i, planLoad plan p = some i →
    p ∈ listAt g (keys.getD index 0)
  planTrace : plan = applyEvents [] trace
  traceMono : (trace.map Prod.snd).Pairwise (· ≤ ·)
  traceLt : ∀ ev ∈ trace, ev.2 < keys.getD index 0
  lev : Leveling g0 trace
  t4 : ∀ q k, startOf g0 q = some k → k < keys.getD index 0 →
    q ∈ trace.map Prod.fst
  untouched : ∀ q k, startOf g0 q = some k → q ∉ trace.map Prod.fst →
    q ∈ listAt g k

theorem outerLoop_step_break (f : Nat) (keys : List Nat) (index : Nat)
    (g : Grouping) (plan : Plan) (d : Int) (li : Nat) (trace : Trace)
    (sets : List String) (n : Nat)
    (hidx : index < keys.length)
    (hsets : groupLoad g (keys.getD index 0) = some sets)
    (hd : 0 < d) (hn : n = min sets.length d.toNat) (hn1 : 1 ≤ n)
    (hbreak : d - (n : Nat) ≤ 0) :
    outerLoop (f + 1) keys index g plan d li trace =
      .ok (applyEvents plan (batchEvents (sets.take n) (keys.getD index 0)),
           trace ++ batchEvents (sets.take n) (keys.getD index 0)) := by
  have hinner : innerLoop (keys.getD index 0) sets 0
      ⟨plan, g, d, li, trace, false⟩ =
      ⟨applyEvents plan (batchEvents (sets.take n) (keys.getD index 0)),
       foldAppend g (keys.getD index 0 + 1) (sets.take n), d - (n : Nat),
       n - 1, trace ++ batchEvents (sets.take n) (keys.getD index 0),
       true⟩ := by
    rw [innerLoop_spec _ sets 0 plan g d li trace false hd, ← hn]
    simp only [InnerState.mk.injEq]
    refine ⟨trivial, trivial, trivial, ?_, trivial, ?_⟩
    · rw [if_neg (show ¬ n = 0 from by omega)]
      omega
    · simp only [Bool.false_or, decide_eq_true_eq]
      omega
  rw [outerLoop, dif_pos hidx]
  simp only [hsets]
  rw [hinner]
  dsimp only
  by_cases hfull : ((n - 1 : Nat) : Int) = (sets.length : Int) - 1
  · rw [if_pos hfull]
    dsimp only
    by_cases hlast : index = keys.length - 1
    · rw [if_pos ⟨rfl, hlast⟩]
      dsimp only
      rw [if_pos hbreak]
    · rw [if_neg (fun hc => hlast hc.2)]
      rw [if_pos (show index + 1 < keys.length from by omega)]
      by_cases hne2 : keys.getD index 0 + 1 ≠ keys.getD (index + 1) 0
      · rw [if_pos hne2]
        dsimp only
        rw [if_pos hbreak]
      · rw [if_neg hne2]
        dsimp only
        rw [if_pos hbreak]
  · rw [if_neg hfull]
    rw [if_pos (show n - 1 + 1 ≤ sets.length from by omega)]
    dsimp only
    by_cases hlast : index = keys.length - 1
    · rw [if_pos ⟨rfl, hlast⟩]
      dsimp only
      rw [if_pos hbreak]
    · rw [if_neg (fun hc => hlast hc.2)]
      rw [if_pos (show index + 1 < keys.length from by omega)]
      by_cases hne2 : keys.getD index 0 + 1 ≠ keys.getD (index + 1) 0
      · rw [if_pos hne2]
        dsimp only
        rw [if_pos hbreak]
      · rw [if_neg hne2]
        dsimp only
        rw [if_pos hbreak]

theorem outerLoop_step_cont (f : Nat) (keys : List Nat) (index : Nat)
    (g : Grouping) (plan : Plan) (d : Int) (li : Nat) (trace : Trace)
    (sets : List String)
    (hidx : index < keys.length)
    (hsets : groupLoad g (keys.getD index 0) = some sets)
    (hd : 0 < d) (hlen1 : 1 ≤ sets.length)
    (hcont : 0 < d - (sets.length : Nat)) :
    outerLoop (f + 1) keys index g plan d li trace =
      outerLoop f
        (if index = keys.length - 1 then
           insertKey keys index (keys.getD index 0 + 1)
         else if keys.getD index 0 + 1 ≠ keys.getD (index + 1) 0 then
           insertKey keys index (keys.getD index 0 + 1)
         else keys)
        (index + 1)
        (groupDelete (foldAppend g (keys.getD index 0 + 1) sets)
          (keys.getD index 0))
        (applyEvents plan (batchEvents sets (keys.getD index 0)))
        (d - (sets.length : Nat)) (sets.length - 1)
        (trace ++ batchEvents sets (keys.getD index 0)) := by
  have hmin : min sets.length d.toNat = sets.length := by omega
  have hinner : innerLoop (keys.getD index 0) sets 0
      ⟨plan, g, d, li, trace, false⟩ =
      ⟨applyEvents plan (batchEvents sets (keys.getD index 0)),
       foldAppend g (keys.getD index 0 + 1) sets, d - (sets.length : Nat),
       sets.length - 1, trace ++ batchEvents sets (keys.getD index 0),
       true⟩ := by
    rw [innerLoop_spec _ sets 0 plan g d li trace false hd, hmin,
      List.take_length]
    simp only [InnerState.mk.injEq]
    refine ⟨trivial, trivial, trivial, ?_, trivial, ?_⟩
    · rw [if_neg (show ¬ sets.length = 0 from by omega)]
      omega
    · simp only [Bool.false_or, decide_eq_true_eq]
      omega
  rw [outerLoop, dif_pos hidx]
  simp only [hsets]
  rw [hinner]
  dsimp only
  rw [if_pos (show ((sets.length - 1 : Nat) : Int) =
    (sets.length : Int) - 1 from by omega)]
  dsimp only
  by_cases hlast : index = keys.length - 1
  · rw [if_pos ⟨rfl, hlast⟩]
    dsimp only
    rw [if_neg (show ¬ d - ((sets.length : Nat) : Int) ≤ 0 from by omega)]
    rw [if_pos hlast]
  · rw [if_neg (fun hc => hlast hc.2)]
    rw [if_pos (show index + 1 < keys.length from by omega)]
    rw [if_neg hlast]
    by_cases hne2 : keys.getD index 0 + 1 ≠ keys.getD (index + 1) 0
    · rw [if_pos hne2]
      dsimp only
      rw [if_neg (show ¬ d - ((sets.length : Nat) : Int) ≤ 0 from by omega)]
      rw [if_pos hne2]
    · rw [if_neg hne2]
      dsimp only
      rw [if_neg (show ¬ d - ((sets.length : Nat) : Int) ≤ 0 from by omega)]
      rw [if_neg hne2]

theorem mem_groupSet {e : Nat × List String} :
    ∀ {g : Grouping} {k : Nat} {l : List String},
    e ∈ groupSet g k l → e = (k, l) ∨ e ∈ g := by
  intro g
  induction g with
  | nil =>
    intro k l h
    rw [show groupSet [] k l = [(k, l)] from rfl] at h
    rcases List.mem_cons.mp h with h | h
    · exact Or.inl h
    · cases h
  | cons f rest ih =>
    intro k l h
    obtain ⟨m, v⟩ := f
    by_cases hmk : m = k
    · subst hmk
      rw [show groupSet ((m, v) :: rest) m l = (m, l) :: rest from by
        simp [groupSet]] at h
      rcases List.mem_cons.mp h with h | h
      · exact Or.inl h
      · exact Or.inr (List.mem_cons_of_mem _ h)
    · rw [show groupSet ((m, v) :: rest) k l =
        (m, v) :: groupSet rest k l from by simp [groupSet, hmk]] at h
      rcases List.mem_cons.mp h with h | h
      · exact Or.inr (h ▸ List.mem_cons_self _ _)
      · rcases ih h with h | h
        · exact Or.inl h
        · exact Or.inr (List.mem_cons_of_mem _ h)

theorem mem_foldAppend {e : Nat × List String} {k : Nat} :
    ∀ {ps : List String} {g : Grouping},
    e ∈ foldAppend g k ps → e ∈ g ∨ e.1 = k := by
  intro ps
  induction ps with
  | nil => intro g h; exact Or.inl h
  | cons p rest ih =>
    intro g h
    rw [show foldAppend g k (p :: rest) =
      foldAppend (groupAppend g k p) k rest from rfl] at h
    rcases ih h with h | h
    · rcases mem_groupSet h with h | h
      · exact Or.inr (by rw [h])
      · exact Or.inl h
    · exact Or.inr h

theorem groupLoad_of_mem_nodup :
    ∀ {g : Grouping} {k : Nat} {l : List String},
    (g.map Prod.fst).Nodup → (k, l) ∈ g → groupLoad g k = some l := by
  intro g
  induction g with
  | nil => intro k l _ h; cases h
  | cons e rest ih =>
    intro k l hn h
    obtain ⟨m, v⟩ := e
    rw [List.map_cons, List.nodup_cons] at hn
    rcases List.mem_cons.mp h with h | h
    · injection h with h1 h2
      subst h1; subst h2
      simp [groupLoad]
    · have hkm : m ≠ k := by
        intro he
        subst he
        exact hn.1 (List.mem_map.mpr ⟨(m, l), h, rfl⟩)
      rw [show groupLoad ((m, v) :: rest) k = groupLoad rest k from by
        simp [groupLoad, hkm]]
      exact ih hn.2 h

/-- One balancing pass of the outer loop, run from a state satisfying the
loop invariant with a positive remaining count: it succeeds, the total
increment of the final plan grows by exactly the remaining count, the plan
is the replay of the final event trace, the trace levels are nondecreasing,
the leveling property holds, and all planned pools finish within one level
of each other. -/
theorem outer_master (g0 : Grouping) :
    ∀ (fuel : Nat) (keys : List Nat) (index : Nat) (g : Grouping)
      (plan : Plan) (d : Int) (li : Nat) (trace : Trace),
    LoopInv g0 keys index g plan trace → 0 < d → d.toNat < fuel →
    ∃ plan' trace',
      outerLoop fuel keys index g plan d li trace = .ok (plan', trace') ∧
      planSum plan' = planSum plan + d ∧
      plan' = applyEvents [] trace' ∧
      (trace'.map Prod.snd).Pairwise (· ≤ ·) ∧
      Leveling g0 trace' ∧
      (∃ L, ∀ p i, planLoad plan' p = some i →
        i.currentReplicas = L ∨ i.currentReplicas = L + 1) := by
  intro fuel
  induction fuel with
  | zero =>
    intro keys index g plan d li trace _ hd hfuel
    omega
  | succ f ih =>
    intro keys index g plan d li trace hInv hd hfuel
    have hidx := hInv.hidx
    have hsorted := hInv.sorted
    obtain ⟨value, hvalue⟩ : ∃ v, keys.getD index 0 = v := ⟨_, rfl⟩
    have hdropcons : keys.drop index = value :: keys.drop (index + 1) := by
      rw [← hvalue]
      exact drop_eq_getD_cons hidx
    have hdropgt : ∀ x ∈ keys.drop (index + 1), value < x := by
      intro x hx
      have := sorted_drop_gt hsorted hidx x hx
      rwa [hvalue] at this
    have hvmem : value ∈ keys.drop index := by
      rw [hdropcons]
      exact List.mem_cons_self _ _
    have hvg : value ∈ g.map Prod.fst := (hInv.gkeys value).mp hvmem
    obtain ⟨sets, hsets⟩ : ∃ sets, groupLoad g value = some sets := by
      cases hl : groupLoad g value with
      | none =>
        have := (groupLoad_isSome_iff g value).mpr hvg
        rw [hl] at this
        cases this
      | some l => exact ⟨l, rfl⟩
    have hsets' : groupLoad g (keys.getD index 0) = some sets := by
      rw [hvalue]
      exact hsets
    have hlistAt : listAt g value = sets := by
      unfold listAt
      rw [hsets]
      rfl
    have hplanCurr : ∀ p i, planLoad plan p = some i →
        i.currentReplicas = value := by
      intro p i hl
      rw [← hvalue]
      exact hInv.planCurr p i hl
    have hplanInG : ∀ p i, planLoad plan p = some i → p ∈ sets := by
      intro p i hl
      rw [← hlistAt]
      rw [← hvalue]
      exact hInv.planInG p i hl
    have htraceLt : ∀ ev ∈ trace, ev.2 < value := by
      intro ev hev
      rw [← hvalue]
      exact hInv.traceLt ev hev
    have ht4 : ∀ q k, startOf g0 q = some k → k < value →
        q ∈ trace.map Prod.fst := by
      intro q k hs hk
      exact hInv.t4 q k hs (by rw [hvalue]; exact hk)
    have hsetsne : sets ≠ [] :=
      hInv.gNonempty (value, sets) (entry_mem_of_groupLoad _ _ _ hsets)
    have hsetsnd : sets.Nodup := nodup_listAt hInv.gKeysNodup
      hInv.gPoolsNodup hsets
    have hsetslen : 1 ≤ sets.length := by
      cases sets with
      | nil => exact absurd rfl hsetsne
      | cons a t => simp
    obtain ⟨n, hn⟩ : ∃ n, n = min sets.length d.toNat := ⟨_, rfl⟩
    have hn1 : 1 ≤ n := by omega
    have hnlen : n ≤ sets.length := by omega
    have htoLen : (sets.take n).length = n := by
      rw [List.length_take]
      omega
    have htoNodup : (sets.take n).Nodup :=
      hsetsnd.sublist (List.take_sublist _ _)
    have htoSub : ∀ p ∈ sets.take n, p ∈ sets := fun p hp =>
      (List.take_sublist _ _).mem hp
    have hsum1 : planSum (applyEvents plan (batchEvents (sets.take n) value)) =
        planSum plan + n := by
      rw [planSum_applyEvents_batch value (sets.take n) plan htoNodup
        (fun p _ i hl => hplanCurr p i hl), htoLen]
    have hreplay1 : applyEvents plan (batchEvents (sets.take n) value) =
        applyEvents [] (trace ++ batchEvents (sets.take n) value) := by
      rw [hInv.planTrace, applyEvents_append]
    have hmono1 : (((trace ++ batchEvents (sets.take n) value).map
        Prod.snd)).Pairwise (· ≤ ·) := by
      rw [List.map_append, List.pairwise_append]
      refine ⟨hInv.traceMono, ?_, ?_⟩
      · exact pairwise_le_of_all_eq (fun x hx => by
          obtain ⟨ev, hev, hx'⟩ := List.mem_map.mp hx
          rw [← hx']
          exact batchEvents_mem_snd hev)
      · intro a ha b hb
        obtain ⟨ev, hev, ha'⟩ := List.mem_map.mp ha
        obtain ⟨ev', hev', hb'⟩ := List.mem_map.mp hb
        have h1 : a < value := by
          rw [← ha']
          exact htraceLt ev hev
        have h2 : b = value := by
          rw [← hb']
          exact batchEvents_mem_snd hev'
        omega
    have hlev1 : Leveling g0 (trace ++ batchEvents (sets.take n) value) :=
      Leveling_extend g0 trace value (sets.take n) hInv.lev ht4
    have hLbound1 : ∀ p i,
        planLoad (applyEvents plan (batchEvents (sets.take n) value)) p =
          some i →
        i.currentReplicas = value ∨ i.currentReplicas = value + 1 := by
      intro p i hl
      by_cases hp : p ∈ sets.take n
      · rw [planLoad_applyEvents_batch_mem value (sets.take n) plan p
          htoNodup hp] at hl
        injection hl with hl
        rw [← hl]
        exact Or.inr rfl
      · rw [planLoad_applyEvents_batch_notMem value (sets.take n) plan p
          hp] at hl
        exact Or.inl (hplanCurr p i hl)
    by_cases hbreak : d - (n : Nat) ≤ 0
    · have hrun := outerLoop_step_break f keys index g plan d li trace sets n
        hidx hsets' hd hn hn1 hbreak
      rw [hvalue] at hrun
      refine ⟨_, _, hrun, ?_, hreplay1, hmono1, hlev1, ⟨value, hLbound1⟩⟩
      rw [hsum1]
      omega
    · -- the group is fully processed and the loop continues
      have hfull : n = sets.length := by omega
      have hcont : 0 < d - (sets.length : Nat) := by omega
      have htakeAll : sets.take n = sets := by
        rw [hfull]
        exact List.take_length sets
      rw [htakeAll] at hsum1 hreplay1 hmono1 hlev1 hLbound1
      have hrun := outerLoop_step_cont f keys index g plan d li trace sets
        hidx hsets' hd hsetslen hcont
      rw [hvalue] at hrun
      -- the next key list and its facts
      have hK : ∀ keys1, keys1 =
          (if index = keys.length - 1 then
             insertKey keys index (value + 1)
           else if value + 1 ≠ keys.getD (index + 1) 0 then
             insertKey keys index (value + 1)
           else keys) →
          keys1.Pairwise (· < ·) ∧ index + 1 < keys1.length ∧
          keys1.getD (index + 1) 0 = value + 1 ∧
          (∀ k, k ∈ keys1.drop (index + 1) ↔
            (k = value + 1 ∨ k ∈ keys.drop (index + 1))) := by
        intro keys1 hkeys1
        by_cases hlast : index = keys.length - 1
        · rw [if_pos hlast] at hkeys1
          have hnone : keys.drop (index + 1) = [] := by
            rw [List.drop_eq_nil_iff]
            omega
          have hfacts := insertKey_facts keys index value hsorted hidx hvalue
            (fun h2 => by omega)
          rw [← hkeys1] at hfacts
          exact hfacts
        · rw [if_neg hlast] at hkeys1
          by_cases hne2 : value + 1 ≠ keys.getD (index + 1) 0
          · rw [if_pos hne2] at hkeys1
            have hfacts := insertKey_facts keys index value hsorted hidx
              hvalue (fun h2 he => hne2 he.symm)
            rw [← hkeys1] at hfacts
            exact hfacts
          · rw [if_neg hne2] at hkeys1
            push_neg at hne2
            have hlt : index + 1 < keys.length := by omega
            have hdrop2 : keys.drop (index + 1) =
                (value + 1) :: keys.drop (index + 2) := by
              rw [drop_eq_getD_cons hlt, ← hne2]
            subst hkeys1
            refine ⟨hsorted, hlt, hne2.symm, ?_⟩
            intro k
            constructor
            · intro h
              exact Or.inr h
            · intro h
              rcases h with h | h
              · rw [hdrop2, h]
                exact List.mem_cons_self _ _
              · exact h
      obtain ⟨K1, K2, K3, K4⟩ := hK _ rfl
      -- facts about the next grouping
      have hgfload : ∀ k, groupLoad (foldAppend g (value + 1) sets) k =
          if value + 1 = k then some (listAt g (value + 1) ++ sets)
          else groupLoad g k := by
        intro k
        rw [groupLoad_foldAppend]
        by_cases hk : value + 1 = k
        · rw [if_pos ⟨hk, hsetsne⟩, if_pos hk]
          rfl
        · rw [if_neg (fun hc => hk hc.1), if_neg hk]
      have hgfkeysnd : ((foldAppend g (value + 1) sets).map Prod.fst).Nodup :=
        nodup_mapFst_foldAppend _ _ _ hInv.gKeysNodup
      have hgfloadvalue : groupLoad (foldAppend g (value + 1) sets) value =
          some sets := by
        rw [hgfload, if_neg (by omega)]
        exact hsets
      have hg1load : ∀ k,
          groupLoad (groupDelete (foldAppend g (value + 1) sets) value) k =
          if k = value then none
          else groupLoad (foldAppend g (value + 1) sets) k := by
        intro k
        exact groupLoad_groupDelete _ _ _
      have hg1keysnd : ((groupDelete (foldAppend g (value + 1) sets)
          value).map Prod.fst).Nodup :=
        hgfkeysnd.sublist ((groupDelete_sublist _ _).map Prod.fst)
      have hpoolsperm : (poolsOf (groupDelete (foldAppend g (value + 1) sets)
          value)).Perm (poolsOf g) := by
        have hsplitf := poolsOf_split (foldAppend g (value + 1) sets) value
          sets hgfkeysnd hgfloadvalue
        have hfa : (poolsOf (foldAppend g (value + 1) sets)).Perm
            (poolsOf g ++ sets) := poolsOf_foldAppend_perm _ _ _
        have h1 : (sets ++ poolsOf (groupDelete (foldAppend g (value + 1)
            sets) value)).Perm (sets ++ poolsOf g) := by
          refine hsplitf.symm.trans (hfa.trans ?_)
          exact List.perm_append_comm
        exact (List.perm_append_left_iff sets).mp h1
      -- the loop invariant for the next iteration
      have hInv' : LoopInv g0
          (if index = keys.length - 1 then
             insertKey keys index (value + 1)
           else if value + 1 ≠ keys.getD (index + 1) 0 then
             insertKey keys index (value + 1)
           else keys)
          (index + 1)
          (groupDelete (foldAppend g (value + 1) sets) value)
          (applyEvents plan (batchEvents sets value))
          (trace ++ batchEvents sets value) := by
        refine ⟨K1, K2, ?_, hg1keysnd, ?_, ?_, ?_, ?_, hreplay1, hmono1,
          ?_, hlev1, ?_, ?_⟩
        · -- gkeys
          intro k
          rw [K4 k]
          constructor
          · intro h
            rw [← groupLoad_isSome_iff]
            rw [hg1load]
            rcases h with h | h
            · rw [if_neg (by omega), hgfload, if_pos h.symm]
              rfl
            · have hkv : k ≠ value := by
                have := hdropgt k h
                omega
              rw [if_neg hkv, hgfload]
              by_cases hk1 : value + 1 = k
              · rw [if_pos hk1]
                rfl
              · rw [if_neg hk1]
                rw [groupLoad_isSome_iff]
                apply (hInv.gkeys k).mp
                rw [hdropcons]
                exact List.mem_cons_of_mem _ h
          · intro h
            rw [← groupLoad_isSome_iff, hg1load] at h
            by_cases hkv : k = value
            · rw [if_pos hkv] at h
              cases h
            · rw [if_neg hkv, hgfload] at h
              by_cases hk1 : value + 1 = k
              · exact Or.inl hk1.symm
              · rw [if_neg hk1] at h
                rw [groupLoad_isSome_iff] at h
                have := (hInv.gkeys k).mpr h
                rw [hdropcons] at this
                rcases List.mem_cons.mp this with h2 | h2
                · exact absurd h2 hkv
                · exact Or.inr h2
        · -- gNonempty
          intro e he
          have hegf : e ∈ foldAppend g (value + 1) sets :=
            (groupDelete_sublist _ _).subset he
          rcases mem_foldAppend hegf with hg | hk1
          · exact hInv.gNonempty e hg
          · obtain ⟨k0, l0⟩ := e
            have hload0 : groupLoad (foldAppend g (value + 1) sets) k0 =
                some l0 := groupLoad_of_mem_nodup hgfkeysnd hegf
            rw [hgfload] at hload0
            dsimp only at hk1
            rw [if_pos hk1.symm] at hload0
            injection hload0 with hload0
            rw [← hload0]
            intro hnil
            rw [List.append_eq_nil] at hnil
            exact hsetsne hnil.2
        · -- gPoolsNodup
          exact hpoolsperm.nodup_iff.mpr hInv.gPoolsNodup
        · -- planCurr
          intro p i hl
          rw [K3]
          by_cases hp : p ∈ sets
          · rw [planLoad_applyEvents_batch_mem value sets plan p hsetsnd
              hp] at hl
            injection hl with hl
            rw [← hl]
          · rw [planLoad_applyEvents_batch_notMem value sets plan p hp] at hl
            exact absurd (hplanInG p i hl) hp
        · -- planInG
          intro p i hl
          rw [K3]
          unfold listAt
          rw [hg1load, if_neg (by omega), hgfload, if_pos rfl]
          have hp : p ∈ sets := by
            by_cases hp : p ∈ sets
            · exact hp
            · rw [planLoad_applyEvents_batch_notMem value sets plan p hp] at hl
              exact absurd (hplanInG p i hl) hp
          exact List.mem_append_right _ hp
        · -- traceLt
          intro ev hev
          rw [K3]
          rcases List.mem_append.mp hev with h | h
          · have := htraceLt ev h
            omega
          · have := batchEvents_mem_snd h
            omega
        · -- t4
          intro q k hst hk
          rw [K3] at hk
          rw [List.map_append, batchEvents_map_fst]
          by_cases hkv : k < value
          · exact List.mem_append_left _ (ht4 q k hst hkv)
          · have hkeq : k = value := by omega
            by_cases hq : q ∈ trace.map Prod.fst
            · exact List.mem_append_left _ hq
            · have hu := hInv.untouched q k hst hq
              rw [hkeq] at hu
              rw [hlistAt] at hu
              exact List.mem_append_right _ hu
        · -- untouched
          intro q k hst hq1
          rw [List.map_append, batchEvents_map_fst] at hq1
          have hqtr : q ∉ trace.map Prod.fst :=
            fun h => hq1 (List.mem_append_left _ h)
          have hqto : q ∉ sets :=
            fun h => hq1 (List.mem_append_right _ h)
          have hold := hInv.untouched q k hst hqtr
          unfold listAt
          rw [hg1load]
          by_cases hkv : k = value
          · rw [hkv, hlistAt] at hold
            exact absurd hold hqto
          · rw [if_neg hkv, hgfload]
            by_cases hk1 : value + 1 = k
            · rw [if_pos hk1]
              rw [← hk1] at hold
              exact List.mem_append_left _ hold
            · rw [if_neg hk1]
              exact hold
      obtain ⟨plan'', trace'', heq, hsum, hreplay, hmono, hlev2, hL⟩ :=
        ih _ (index + 1) _ _ (d - (sets.length : Nat)) (sets.length - 1) _
          hInv' (by omega) (by omega)
      refine ⟨plan'', trace'', ?_, ?_, hreplay, hmono, hlev2, hL⟩
      · rw [hrun]
        exact heq
      · rw [hsum, hsum1, hfull]
        ring

/-- At the start of a pass over a well-formed non-empty grouping, the loop
invariant holds for the sorted key list, the grouping itself, and the empty
plan and trace. -/
theorem initial_inv (g0 : Grouping) (hwf : WFGrouping g0) (hne : g0 ≠ []) :
    LoopInv g0 (sortedKeys g0) 0 g0 [] [] := by
  obtain ⟨hkn, hnonempty, hpn⟩ := hwf
  have hperm : (sortedKeys g0).Perm (g0.map Prod.fst) :=
    List.perm_insertionSort (· ≤ ·) (g0.map Prod.fst)
  have hsortle : (sortedKeys g0).Pairwise (· ≤ ·) :=
    List.sorted_insertionSort (· ≤ ·) (g0.map Prod.fst)
  have hsortnd : (sortedKeys g0).Nodup := hperm.nodup_iff.mpr hkn
  have hsorted : (sortedKeys g0).Pairwise (· < ·) :=
    (hsortle.and hsortnd).imp (fun h => lt_of_le_of_ne h.1 h.2)
  have hlen : 0 < (sortedKeys g0).length := by
    rw [hperm.length_eq, List.length_map]
    cases g0 with
    | nil => exact absurd rfl hne
    | cons e rest => simp
  refine ⟨hsorted, hlen, ?_, hkn, hnonempty, hpn, ?_, ?_, rfl, ?_, ?_, ?_,
    ?_, ?_⟩
  · intro k
    rw [List.drop_zero]
    exact hperm.mem_iff
  · intro p i hl
    cases hl
  · intro p i hl
    cases hl
  · exact List.Pairwise.nil
  · intro ev hev
    cases hev
  · intro t1 p L t2 heq _
    exact absurd heq (by simp)
  · intro q k hst hk
    have hmem : k ∈ sortedKeys g0 :=
      hperm.mem_iff.mpr (startOf_mem_keys g0 q k hst)
    have hmin : (sortedKeys g0).getD 0 0 ≤ k := by
      have hdc : sortedKeys g0 = (sortedKeys g0).getD 0 0 ::
          (sortedKeys g0).drop 1 := by
        have := @drop_eq_getD_cons (sortedKeys g0) 0 hlen
        rwa [List.drop_zero] at this
      rw [hdc] at hmem
      rcases List.mem_cons.mp hmem with h | h
      · omega
      · have := sorted_drop_gt hsorted hlen k (by simpa using h)
        omega
    omega
  · intro q k hst _
    exact startOf_groupLoad g0 q k hkn hst

/-- Claim C1 (amended to D ≥ 1): for every well-formed non-empty grouping and
every desired additional count D ≥ 1, the balancer succeeds and the returned
plan's total increment `sum(currentReplicas - prevReplicas)` equals exactly
D. (At D = 0 the source instead panics on a single-group input; see the
counterexample.) -/
theorem adjustMachineSets_sum_eq_desired (g : Grouping) (d : Int)
    (hwf : WFGrouping g) (hne : g ≠ []) (hd : 1 ≤ d) :
    ∃ plan, adjustMachineSets g d = .ok plan ∧ planSum plan = d := by
  obtain ⟨plan', trace', hrun, hsum, _, _, _, _⟩ :=
    outer_master g (d.toNat + 2) (sortedKeys g) 0 g [] d 0 []
      (initial_inv g hwf hne) (by omega) (by omega)
  refine ⟨plan', ?_, ?_⟩
  · unfold adjustMachineSets adjustMachineSetsT
    rw [hrun]
    rfl
  · rw [hsum]
    show planSum [] + d = d
    unfold planSum
    ring

/-- Witness for claim C1 (amended) at a concrete input: two pools at level 2
and D = 3 yield a plan with total increment 3. -/
theorem adjustMachineSets_sum_eq_desired_witness :
    adjustMachineSets [(2, ["A", "B"])] 3 =
      .ok [("A", ⟨2, 4⟩), ("B", ⟨2, 3⟩)] ∧
    planSum [("A", ⟨2, 4⟩), ("B", ⟨2, 3⟩)] = 3 := by
  obtain ⟨plan, hok, hsum⟩ := adjustMachineSets_sum_eq_desired
    [(2, ["A", "B"])] 3 (by decide) (by decide) (by omega)
  have hev : adjustMachineSets [(2, ["A", "B"])] 3 =
      .ok [("A", ⟨2, 4⟩), ("B", ⟨2, 3⟩)] := rfl
  rw [hev] at hok
  injection hok with h2
  rw [← h2] at hsum
  exact ⟨hev, hsum⟩

theorem outerLoop_d_nonpos (f : Nat) (keys : List Nat) (index : Nat)
    (g : Grouping) (plan : Plan) (d : Int) (li : Nat) (trace : Trace)
    (hd : d ≤ 0) (x : Plan × Trace)
    (h : outerLoop (f + 1) keys index g plan d li trace = .ok x) :
    x = (plan, trace) := by
  rw [outerLoop] at h
  by_cases hidx : index < keys.length
  · rw [dif_pos hidx] at h
    cases hload : groupLoad g (keys.getD index 0) with
    | some machineSets =>
      simp only [hload] at h
      rw [innerLoop_dle _ _ _ _ (by exact hd)] at h
      dsimp only at h
      by_cases hc1 : (li : Int) = (machineSets.length : Int) - 1
      · rw [if_pos hc1] at h
        dsimp only at h
        rw [if_neg (show ¬(false = true ∧ index = keys.length - 1) from
          fun hc => absurd hc.1 (by decide))] at h
        by_cases hc3 : index + 1 < keys.length
        · rw [if_pos hc3] at h
          by_cases hc4 : keys.getD index 0 + 1 ≠ keys.getD (index + 1) 0
          · rw [if_pos hc4] at h
            dsimp only at h
            rw [if_pos hd] at h
            injection h with h1
            exact h1.symm
          · rw [if_neg hc4] at h
            dsimp only at h
            rw [if_pos hd] at h
            injection h with h1
            exact h1.symm
        · rw [if_neg hc3] at h
          dsimp only at h
          cases h
      · rw [if_neg hc1] at h
        by_cases hc2 : li + 1 ≤ machineSets.length
        · rw [if_pos hc2] at h
          dsimp only at h
          rw [if_neg (show ¬(false = true ∧ index = keys.length - 1) from
            fun hc => absurd hc.1 (by decide))] at h
          by_cases hc3 : index + 1 < keys.length
          · rw [if_pos hc3] at h
            by_cases hc4 : keys.getD index 0 + 1 ≠ keys.getD (index + 1) 0
            · rw [if_pos hc4] at h
              dsimp only at h
              rw [if_pos hd] at h
              injection h with h1
              exact h1.symm
            · rw [if_neg hc4] at h
              dsimp only at h
              rw [if_pos hd] at h
              injection h with h1
              exact h1.symm
          · rw [if_neg hc3] at h
            dsimp only at h
            cases h
        · rw [if_neg hc2] at h
          dsimp only at h
          cases h
    | none =>
      simp only [hload] at h
      dsimp only at h
      rw [if_neg (show ¬(false = true ∧ index = keys.length - 1) from
        fun hc => absurd hc.1 (by decide))] at h
      by_cases hc3 : index + 1 < keys.length
      · rw [if_pos hc3] at h
        by_cases hc4 : keys.getD index 0 + 1 ≠ keys.getD (index + 1) 0
        · rw [if_pos hc4] at h
          dsimp only at h
          rw [if_pos hd] at h
          injection h with h1
          exact h1.symm
        · rw [if_neg hc4] at h
          dsimp only at h
          rw [if_pos hd] at h
          injection h with h1
          exact h1.symm
      · rw [if_neg hc3] at h
        dsimp only at h
        cases h
  · rw [dif_neg hidx] at h
    injection h with h1
    exact h1.symm

/-- Claim C2 (amended): for D ≤ 0 the balancer is only a no-op when the
grouping has at least two distinct replica-count groups — it then returns
the empty plan and performs no increments. With exactly one replica-count
group, the source instead panics with an index-out-of-range on
`keys[index+1]` (its behavior for D ≤ 0 is undefined by intent). -/
theorem adjustMachineSets_d_nonpos_behavior (g : Grouping) (d : Int)
    (hwf : WFGrouping g) (hd : d ≤ 0) (hne : g ≠ []) :
    (2 ≤ g.length → adjustMachineSets g d = .ok []) ∧
    (g.length = 1 → adjustMachineSets g d = .error "index out of range") := by
  obtain ⟨hkn, hnonempty, hpn⟩ := hwf
  have hperm : (sortedKeys g).Perm (g.map Prod.fst) :=
    List.perm_insertionSort (· ≤ ·) (g.map Prod.fst)
  have hklen : (sortedKeys g).length = g.length := by
    rw [hperm.length_eq, List.length_map]
  have hlen0 : 0 < (sortedKeys g).length := by
    rw [hklen]
    cases g with
    | nil => exact absurd rfl hne
    | cons e rest => simp
  obtain ⟨sets, hsets⟩ :
      ∃ sets, groupLoad g ((sortedKeys g).getD 0 0) = some sets := by
    have hvmem : (sortedKeys g).getD 0 0 ∈ sortedKeys g := by
      have := @drop_eq_getD_cons (sortedKeys g) 0 hlen0
      rw [List.drop_zero] at this
      rw [this]
      exact List.mem_cons_self _ _
    have hvg : (sortedKeys g).getD 0 0 ∈ g.map Prod.fst :=
      hperm.mem_iff.mp hvmem
    cases hl : groupLoad g ((sortedKeys g).getD 0 0) with
    | none =>
      have := (groupLoad_isSome_iff g _).mpr hvg
      rw [hl] at this
      cases this
    | some l => exact ⟨l, rfl⟩
  have hsetsne : sets ≠ [] :=
    hnonempty (_, sets) (entry_mem_of_groupLoad _ _ _ hsets)
  have hsetslen : 1 ≤ sets.length := by
    cases sets with
    | nil => exact absurd rfl hsetsne
    | cons a t => simp
  have hfuel : d.toNat + 2 = (d.toNat + 1) + 1 := rfl
  constructor
  · intro hg2
    suffices hT : adjustMachineSetsT g d = .ok ([], []) by
      unfold adjustMachineSets
      rw [hT]
      rfl
    unfold adjustMachineSetsT
    rw [hfuel, outerLoop, dif_pos hlen0]
    simp only [hsets]
    rw [innerLoop_dle _ _ _ _ (by exact hd)]
    dsimp only
    have hc3 : 0 + 1 < (sortedKeys g).length := by omega
    by_cases hc1 : ((0 : Nat) : Int) = (sets.length : Int) - 1
    · rw [if_pos hc1]
      dsimp only
      rw [if_neg (show ¬(false = true ∧ 0 = (sortedKeys g).length - 1) from
        fun hc => absurd hc.1 (by decide))]
      rw [if_pos hc3]
      by_cases hc4 : (sortedKeys g).getD 0 0 + 1 ≠
          (sortedKeys g).getD (0 + 1) 0
      · rw [if_pos hc4]
        dsimp only
        rw [if_pos hd]
      · rw [if_neg hc4]
        dsimp only
        rw [if_pos hd]
    · rw [if_neg hc1, if_pos (show (0 : Nat) + 1 ≤ sets.length from hsetslen)]
      dsimp only
      rw [if_neg (show ¬(false = true ∧ 0 = (sortedKeys g).length - 1) from
        fun hc => absurd hc.1 (by decide))]
      rw [if_pos hc3]
      by_cases hc4 : (sortedKeys g).getD 0 0 + 1 ≠
          (sortedKeys g).getD (0 + 1) 0
      · rw [if_pos hc4]
        dsimp only
        rw [if_pos hd]
      · rw [if_neg hc4]
        dsimp only
        rw [if_pos hd]
  · intro hg1
    suffices hT : adjustMachineSetsT g d = .error "index out of range" by
      unfold adjustMachineSets
      rw [hT]
      rfl
    unfold adjustMachineSetsT
    rw [hfuel, outerLoop, dif_pos hlen0]
    simp only [hsets]
    rw [innerLoop_dle _ _ _ _ (by exact hd)]
    dsimp only
    have hc3 : ¬ 0 + 1 < (sortedKeys g).length := by omega
    by_cases hc1 : ((0 : Nat) : Int) = (sets.length : Int) - 1
    · rw [if_pos hc1]
      dsimp only
      rw [if_neg (show ¬(false = true ∧ 0 = (sortedKeys g).length - 1) from
        fun hc => absurd hc.1 (by decide))]
      rw [if_neg hc3]
    · rw [if_neg hc1, if_pos (show (0 : Nat) + 1 ≤ sets.length from hsetslen)]
      dsimp only
      rw [if_neg (show ¬(false = true ∧ 0 = (sortedKeys g).length - 1) from
        fun hc => absurd hc.1 (by decide))]
      rw [if_neg hc3]

/-- Witness for claim C2 (amended) at a concrete input: two replica-count
groups and D = 0 produce the empty plan. -/
theorem adjustMachineSets_d_nonpos_behavior_witness :
    adjustMachineSets [(2, ["A"]), (5, ["B"])] 0 = .ok [] :=
  (adjustMachineSets_d_nonpos_behavior [(2, ["A"]), (5, ["B"])] 0
    (by decide) (by omega) (by decide)).1 (by decide)

theorem adjustMachineSetsT_empty (d : Int) :
    adjustMachineSetsT [] d = .ok ([], []) := by
  unfold adjustMachineSetsT
  rw [show d.toNat + 2 = (d.toNat + 1) + 1 from rfl, outerLoop]
  rw [dif_neg (by decide : ¬ (0 : Nat) < (sortedKeys []).length)]

/-- Claim C3: the leveling invariant. In any completed balancing pass, no
pool is incremented a second time (an event for a pool already appearing
earlier in the trace) while a pool whose starting replica count is strictly
below the pre-increment level has not yet received its first increment. The
property is stated for every event of the trace: all pools starting
strictly below the event's level already occur earlier in the trace. -/
theorem adjustMachineSets_leveling (g0 : Grouping) (d : Int) (plan : Plan)
    (trace : Trace) (hwf : WFGrouping g0)
    (hrun : adjustMachineSetsT g0 d = .ok (plan, trace)) :
    Leveling g0 trace := by
  by_cases hne : g0 = []
  · subst hne
    rw [adjustMachineSetsT_empty] at hrun
    injection hrun with h1
    have ht : trace = [] := (congrArg Prod.snd h1).symm
    rw [ht]
    intro t1 p L t2 heq _
    exact absurd heq (by simp)
  · by_cases hd : 0 < d
    · obtain ⟨plan', trace', hrun', _, _, _, hlev, _⟩ :=
        outer_master g0 (d.toNat + 2) (sortedKeys g0) 0 g0 [] d 0 []
          (initial_inv g0 hwf hne) hd (by omega)
      unfold adjustMachineSetsT at hrun
      rw [hrun'] at hrun
      injection hrun with h1
      have ht : trace' = trace := congrArg Prod.snd h1
      rw [← ht]
      exact hlev
    · have hx := outerLoop_d_nonpos (d.toNat + 1) (sortedKeys g0) 0 g0 [] d
        0 [] (by omega) (plan, trace)
        (by unfold adjustMachineSetsT at hrun; exact hrun)
      have ht : trace = [] := congrArg Prod.snd hx
      rw [ht]
      intro t1 p L t2 heq _
      exact absurd heq (by simp)

/-- Witness for claim C3 at a concrete input: the trace of the two-pool
scenario satisfies the leveling property. -/
theorem adjustMachineSets_leveling_witness :
    Leveling [(2, ["A", "B"])] [("A", 2), ("B", 2), ("A", 3)] :=
  adjustMachineSets_leveling [(2, ["A", "B"])] 3
    [("A", ⟨2, 4⟩), ("B", ⟨2, 3⟩)] [("A", 2), ("B", 2), ("A", 3)]
    (by decide) (by rfl)

theorem applyEvents_prev_stable :
    ∀ (evs : Trace) (pl : Plan) (p : String) (i : MachineSetInfo),
    planLoad pl p = some i →
    ∃ i', planLoad (applyEvents pl evs) p = some i' ∧
      i'.prevReplicas = i.prevReplicas := by
  intro evs
  induction evs with
  | nil => intro pl p i h; exact ⟨i, h, rfl⟩
  | cons ev evs ih =>
    intro pl p i h
    rw [applyEvents_cons]
    obtain ⟨q, L⟩ := ev
    by_cases hq : q = p
    · subst hq
      have h1 : planLoad (applyEvent pl (q, L)) q =
          some ⟨prevOf pl q L, L + 1⟩ := by
        rw [planLoad_applyEvent, if_pos rfl]
      obtain ⟨i', hi', hp⟩ := ih _ q _ h1
      refine ⟨i', hi', ?_⟩
      rw [hp]
      show prevOf pl q L = i.prevReplicas
      unfold prevOf
      rw [h]
    · have h1 : planLoad (applyEvent pl (q, L)) p = some i := by
        rw [planLoad_applyEvent, if_neg hq]
        exact h
      exact ih _ p i h1

theorem applyEvents_curr_src :
    ∀ (evs : Trace) (pl : Plan) (p : String) (i : MachineSetInfo),
    planLoad (applyEvents pl evs) p = some i →
    planLoad pl p = some i ∨
      ∃ ev ∈ evs, ev.1 = p ∧ i.currentReplicas = ev.2 + 1 := by
  intro evs
  induction evs with
  | nil => intro pl p i h; exact Or.inl h
  | cons ev evs ih =>
    intro pl p i h
    rw [applyEvents_cons] at h
    rcases ih _ p i h with h1 | h1
    · obtain ⟨q, L⟩ := ev
      rw [planLoad_applyEvent] at h1
      by_cases hq : q = p
      · rw [if_pos hq] at h1
        injection h1 with h1
        right
        exact ⟨(q, L), List.mem_cons_self _ _, hq, by rw [← h1]⟩
      · rw [if_neg hq] at h1
        exact Or.inl h1
    · obtain ⟨ev', hm, he⟩ := h1
      exact Or.inr ⟨ev', List.mem_cons_of_mem _ hm, he⟩

theorem applyEvents_curr_mono :
    ∀ (evs : Trace) (pl : Plan) (p : String) (i : MachineSetInfo),
    planLoad pl p = some i →
    (∀ ev ∈ evs, ev.1 = p → i.currentReplicas ≤ ev.2 + 1) →
    ((evs.map Prod.snd).Pairwise (· ≤ ·)) →
    ∃ i', planLoad (applyEvents pl evs) p = some i' ∧
      i.currentReplicas ≤ i'.currentReplicas := by
  intro evs
  induction evs with
  | nil => intro pl p i h _ _; exact ⟨i, h, le_refl _⟩
  | cons ev evs ih =>
    intro pl p i h hle hpair
    rw [applyEvents_cons]
    obtain ⟨q, L⟩ := ev
    rw [List.map_cons, List.pairwise_cons] at hpair
    by_cases hq : q = p
    · subst hq
      have h1 : planLoad (applyEvent pl (q, L)) q =
          some ⟨prevOf pl q L, L + 1⟩ := by
        rw [planLoad_applyEvent, if_pos rfl]
      have hcur : i.currentReplicas ≤ L + 1 :=
        hle (q, L) (List.mem_cons_self _ _) rfl
      have hle' : ∀ ev' ∈ evs, ev'.1 = q →
          (⟨prevOf pl q L, L + 1⟩ : MachineSetInfo).currentReplicas ≤
            ev'.2 + 1 := by
        intro ev' hm' _
        have hL : L ≤ ev'.2 := hpair.1 ev'.2 (List.mem_map.mpr ⟨ev', hm', rfl⟩)
        show L + 1 ≤ ev'.2 + 1
        omega
      obtain ⟨i', hi', hc⟩ := ih _ q _ h1 hle' hpair.2
      exact ⟨i', hi', le_trans hcur hc⟩
    · have h1 : planLoad (applyEvent pl (q, L)) p = some i := by
        rw [planLoad_applyEvent, if_neg hq]
        exact h
      exact ih _ p i h1
        (fun ev' hm' hp' => hle ev' (List.mem_cons_of_mem _ hm') hp')
        hpair.2

/-- Claim C4: the plan is exactly the replay of the increment-event trace,
and across any two trace prefixes (the plan states during the pass), once a
pool has an entry its `prevReplicas` never changes and its
`currentReplicas` never decreases. -/
theorem adjustMachineSets_plan_prev_stable_curr_mono (g0 : Grouping)
    (d : Int) (plan : Plan) (trace : Trace) (hwf : WFGrouping g0)
    (hrun : adjustMachineSetsT g0 d = .ok (plan, trace)) :
    plan = applyEvents [] trace ∧
    ∀ m nn p im inn, m ≤ nn →
      planLoad (applyEvents [] (trace.take m)) p = some im →
      planLoad (applyEvents [] (trace.take nn)) p = some inn →
      inn.prevReplicas = im.prevReplicas ∧
      im.currentReplicas ≤ inn.currentReplicas := by
  have hfacts : plan = applyEvents [] trace ∧
      (trace.map Prod.snd).Pairwise (· ≤ ·) := by
    by_cases hne : g0 = []
    · subst hne
      rw [adjustMachineSetsT_empty] at hrun
      injection hrun with h1
      have ht : trace = [] := (congrArg Prod.snd h1).symm
      have hp : plan = [] := (congrArg Prod.fst h1).symm
      rw [ht, hp]
      exact ⟨rfl, List.Pairwise.nil⟩
    · by_cases hd : 0 < d
      · obtain ⟨plan', trace', hrun', _, hreplay, hmono, _, _⟩ :=
          outer_master g0 (d.toNat + 2) (sortedKeys g0) 0 g0 [] d 0 []
            (initial_inv g0 hwf hne) hd (by omega)
        unfold adjustMachineSetsT at hrun
        rw [hrun'] at hrun
        injection hrun with h1
        have ht : trace' = trace := congrArg Prod.snd h1
        have hp : plan' = plan := congrArg Prod.fst h1
        rw [← ht, ← hp]
        exact ⟨hreplay, hmono⟩
      · have hx := outerLoop_d_nonpos (d.toNat + 1) (sortedKeys g0) 0 g0 []
          d 0 [] (by omega) (plan, trace)
          (by unfold adjustMachineSetsT at hrun; exact hrun)
        have ht : trace = [] := congrArg Prod.snd hx
        have hp : plan = [] := congrArg Prod.fst hx
        rw [ht, hp]
        exact ⟨rfl, List.Pairwise.nil⟩
  refine ⟨hfacts.1, ?_⟩
  intro m nn p im inn hmn him hinn
  have h1 : (trace.take nn).take m = trace.take m := by
    rw [List.take_take]
    congr 1
    omega
  have hsplit : trace.take nn = trace.take m ++ (trace.take nn).drop m := by
    rw [← h1]
    exact (List.take_append_drop m (trace.take nn)).symm
  have hpair_nn : ((trace.take nn).map Prod.snd).Pairwise (· ≤ ·) :=
    hfacts.2.sublist ((List.take_sublist nn trace).map Prod.snd)
  have hpair_app : ((trace.take m ++ (trace.take nn).drop m).map
      Prod.snd).Pairwise (· ≤ ·) := by
    rw [← hsplit]
    exact hpair_nn
  rw [List.map_append, List.pairwise_append] at hpair_app
  rw [hsplit, applyEvents_append] at hinn
  constructor
  · obtain ⟨i', hi', hp⟩ :=
      applyEvents_prev_stable ((trace.take nn).drop m) _ p im him
    rw [hinn] at hi'
    injection hi' with hi'
    rw [hi']
    exact hp
  · rcases applyEvents_curr_src (trace.take m) [] p im him with h0 | h0
    · rw [show planLoad ([] : Plan) p = none from rfl] at h0
      cases h0
    · obtain ⟨ev0, hm0, hp0, hc0⟩ := h0
      have hle : ∀ ev ∈ (trace.take nn).drop m, ev.1 = p →
          im.currentReplicas ≤ ev.2 + 1 := by
        intro ev hm' _
        rw [hc0]
        have := hpair_app.2.2 ev0.2 (List.mem_map.mpr ⟨ev0, hm0, rfl⟩)
          ev.2 (List.mem_map.mpr ⟨ev, hm', rfl⟩)
        omega
      obtain ⟨i', hi', hc⟩ := applyEvents_curr_mono
        ((trace.take nn).drop m) _ p im him hle hpair_app.2.1
      rw [hinn] at hi'
      injection hi' with hi'
      rw [hi']
      exact hc

/-- Witness for claim C4 at a concrete input: in the two-pool scenario, pool
A's entry after one event has `prevReplicas` 2 and `currentReplicas` 3,
and after all three events `prevReplicas` is unchanged and
`currentReplicas` has only grown. -/
theorem adjustMachineSets_plan_prev_stable_curr_mono_witness :
    ([("A", ⟨2, 4⟩), ("B", ⟨2, 3⟩)] : Plan) =
      applyEvents [] [("A", 2), ("B", 2), ("A", 3)] ∧
    ((⟨2, 4⟩ : MachineSetInfo).prevReplicas =
      (⟨2, 3⟩ : MachineSetInfo).prevReplicas ∧
     (⟨2, 3⟩ : MachineSetInfo).currentReplicas ≤
      (⟨2, 4⟩ : MachineSetInfo).currentReplicas) := by
  have h := adjustMachineSets_plan_prev_stable_curr_mono
    [(2, ["A", "B"])] 3 [("A", ⟨2, 4⟩), ("B", ⟨2, 3⟩)]
    [("A", 2), ("B", 2), ("A", 3)] (by decide) (by rfl)
  exact ⟨h.1, h.2 1 3 "A" ⟨2, 3⟩ ⟨2, 4⟩ (by omega) (by rfl) (by rfl)⟩

/-- Claim C6 (amended): after a pass with D ≥ 1 over a well-formed grouping,
any two pools that actually received increments (entries of the plan) end
with final replica counts within one of each other. The bound does not hold
for untouched pools, whose counts keep their initial skew. -/
theorem adjustMachineSets_planned_within_one (g0 : Grouping) (d : Int)
    (plan : Plan) (hwf : WFGrouping g0) (hne : g0 ≠ []) (hd : 1 ≤ d)
    (hrun : adjustMachineSets g0 d = .ok plan) :
    ∀ p q ip iq, planLoad plan p = some ip → planLoad plan q = some iq →
      ip.currentReplicas ≤ iq.currentReplicas + 1 := by
  obtain ⟨plan', trace', hrun', _, _, _, _, L, hL⟩ :=
    outer_master g0 (d.toNat + 2) (sortedKeys g0) 0 g0 [] d 0 []
      (initial_inv g0 hwf hne) (by omega) (by omega)
  unfold adjustMachineSets adjustMachineSetsT at hrun
  rw [hrun'] at hrun
  simp only [Except.map] at hrun
  injection hrun with h1
  subst h1
  intro p q ip iq hp hq
  rcases hL p ip hp with h1 | h1 <;> rcases hL q iq hq with h2 | h2 <;> omega

/-- Witness for claim C6 (amended) at a concrete input: in the two-pool
scenario both planned pools end at 4 and 3, within one of each other. -/
theorem adjustMachineSets_planned_within_one_witness :
    (⟨2, 4⟩ : MachineSetInfo).currentReplicas ≤
      (⟨2, 3⟩ : MachineSetInfo).currentReplicas + 1 :=
  adjustMachineSets_planned_within_one [(2, ["A", "B"])] 3
    [("A", ⟨2, 4⟩), ("B", ⟨2, 3⟩)] (by decide) (by decide) (by omega)
    rfl "A" "B" ⟨2, 4⟩ ⟨2, 3⟩ rfl rfl
